import Mathlib

/-!
# Verification of the confer layered-configuration resolver

Shallow embedding of the `jacobstr/confer` repository (Go) in Lean 4.

The embedding covers the resolution core:

* `Value` / nested string maps — the dynamic `map[string]interface{}` trees
  that YAML/TOML/JSON decode into (`Value.vmap` plays `map[string]interface{}`,
  `Value.vnull` plays the Go `nil` interface value).
* `ConfigSource` — `source/configsource.go`: the attribute store with its
  case-insensitive materialized-path index.
* `EnvSource` — `source/env.go`: environment-variable bindings.
* `PFlagSource` — the flag-backed override store (its Go file is not part of
  the provided sources; it is modelled from the spec, see below).
* `mergeMap` — the deep merge of the `maps` package (also modelled from the
  spec, see below).
* `ConfigManager` — `config.go`: `Find` / `Get` / `IsSet` / `SetDefault` /
  `Set` / `MergeAttributes` / `ReadPaths` and the precedence chain.

Go maps are modelled as association lists with unique keys built by
`mapInsert` (Go map iteration order is unspecified; the list order fixes one
deterministic order, which no verified claim depends on).  The process
environment (`os.Getenv`) is passed explicitly as an association list
`osenv`; `getenv osenv ""` plays `os.Getenv("")`, which on a real OS is
always the empty string — theorems that need this assume it explicitly.
-/

set_option autoImplicit false

namespace Confer

/-- The dynamic value space of decoded configuration data: Go's
`interface{}` restricted to the shapes the system produces
(null, bool, ints of any width collapsed to one constructor, floats,
strings, `time.Time`, `[]interface{}`, `[]string`, and nested
`map[string]interface{}`).  `vnull` plays the Go `nil` interface. -/
inductive Value where
  | vnull : Value
  | vbool (b : Bool) : Value
  | vint (n : Int) : Value
  | vfloat (q : Rat) : Value
  | vstr (s : String) : Value
  | vtime (t : Int) : Value
  | vseq (xs : List Value) : Value
  | vstrseq (xs : List String) : Value
  | vmap (m : List (String × Value)) : Value
deriving Repr

/-- Entries of a Go `map[string]interface{}` as an association list. -/
abbrev EntryList := List (String × Value)

/-- Go map read `m[k]` (first matching entry; lists built by `mapInsert`
have at most one). -/
def mapLookup {α : Type} (m : List (String × α)) (k : String) : Option α :=
  match m with
  | [] => none
  | (k', v) :: rest => if k' = k then some v else mapLookup rest k

/-- Go map write `m[k] = v`: replace the entry if the key is present,
otherwise append it. -/
def mapInsert {α : Type} (m : List (String × α)) (k : String) (v : α) :
    List (String × α) :=
  match m with
  | [] => [(k, v)]
  | (k', v') :: rest =>
    if k' = k then (k, v) :: rest else (k', v') :: mapInsert rest k v

/-- `cast.ToStringMap`: a map passes through, everything else becomes the
empty map (as `cast.ToStringMapE` errors and returns an empty map). -/
def toStringMap : Value → EntryList
  | Value.vmap m => m
  | _ => []

/-! ## String helpers

Lean's own `String.toLower` etc. do not reduce inside the kernel, so the
Go string functions used by the source (`strings.ToLower`, `strings.ToUpper`,
`strings.Replace(s, ".", "_", -1)`, `strings.Split(s, ".")`) are embedded
as structurally recursive functions over `String.data`.  They agree with
the Go originals on ASCII input, which is the domain of every key in the
source and its tests. -/

/-- ASCII lower-casing of one character (`strings.ToLower`, per char). -/
def charLower (c : Char) : Char :=
  if 65 ≤ c.toNat ∧ c.toNat ≤ 90 then Char.ofNat (c.toNat + 32) else c

/-- ASCII upper-casing of one character (`strings.ToUpper`, per char). -/
def charUpper (c : Char) : Char :=
  if 97 ≤ c.toNat ∧ c.toNat ≤ 122 then Char.ofNat (c.toNat - 32) else c

/-- `strings.ToLower` (ASCII fragment). -/
def strLower (s : String) : String := String.mk (s.data.map charLower)

/-- `strings.ToUpper` (ASCII fragment). -/
def strUpper (s : String) : String := String.mk (s.data.map charUpper)

/-- `strings.Replace(s, ".", "_", -1)`: both pattern and replacement are a
single character, so it is a character map. -/
def dotToUnderscore (s : String) : String :=
  String.mk (s.data.map (fun c => if c = '.' then '_' else c))

/-- Worker for `strings.Split(s, ".")`. -/
def splitOnDotAux (cur : List Char) : List Char → List String
  | [] => [String.mk cur.reverse]
  | c :: rest =>
    if c = '.' then String.mk cur.reverse :: splitOnDotAux [] rest
    else splitOnDotAux (c :: cur) rest

/-- `strings.Split(s, ".")`; never returns the empty list
(`splitOnDot "" = [""]`, as in Go). -/
def splitOnDot (s : String) : List String := splitOnDotAux [] s.data

/-! ## ConfigSource — `source/configsource.go`

The attribute store: a raw data tree (`data`) plus the materialized-path
index (`index`) from lowercased dotted paths to the canonical keys of the
tree. -/

/-- `ConfigSource` struct: raw configuration data and the case-insensitivity
index. -/
structure ConfigSource where
  data : EntryList
  index : List (String × String)
deriving Repr

/-- `NewConfigSource()`: empty data, empty index. -/
def NewConfigSource : ConfigSource := ⟨[], []⟩

/-- The segment walk in `ConfigSource.Get`: Go iterates
`path[:len(path)-1]` coercing each intermediate to a string map
(`cast.ToStringMap` of a non-map is empty, so a non-map intermediate turns
into a miss), then looks the last segment up in the final map.  The Go
`reflect` map-kind test on `current` is dead code — `current` always has
static type `map[string]interface{}` — and is omitted.  The `[]` case is
unreachable because `strings.Split` never returns an empty list. -/
def walkPath : EntryList → List String → Value × Bool
  | _, [] => (Value.vnull, false)
  | current, [last] =>
    match mapLookup current last with
    | some v => (v, true)
    | none => (Value.vnull, false)
  | current, part :: rest@(_ :: _) =>
    match mapLookup current part with
    | none => (Value.vnull, false)
    | some next => walkPath (toStringMap next) rest

/-- `ConfigSource.Get`: resolve the lowercased key through the index; try a
literal top-level lookup on the canonical key first, else split the
canonical key on `.` and walk the tree. -/
def ConfigSource.Get (self : ConfigSource) (key : String) : Value × Bool :=
  match mapLookup self.index (strLower key) with
  | none => (Value.vnull, false)
  | some index_key =>
    match mapLookup self.data index_key with
    | some flat_val => (flat_val, true)
    | none => walkPath self.data (splitOnDot index_key)

mutual

/-- `ConfigSource.updateIndex`: a `nil` value returns before anything is
written; otherwise the entry for the lowercased key is written, and a map
value recurses into its children with dot-joined keys. -/
def updateIndex (index : List (String × String)) (key : String) (data : Value) :
    List (String × String) :=
  match data with
  | Value.vnull => index
  | Value.vmap m => updateIndexChildren (mapInsert index (strLower key) key) key m
  | _ => mapInsert index (strLower key) key

/-- The `for child_key, val := range cast.ToStringMap(data)` loop of
`updateIndex` (including the Go quirk that an empty parent key joins to
the empty key again rather than to the child key). -/
def updateIndexChildren (index : List (String × String)) (key : String) :
    EntryList → List (String × String)
  | [] => index
  | (child_key, val) :: rest =>
    let joined_key := if key.length > 0 then key ++ "." ++ child_key else key
    updateIndexChildren (updateIndex index joined_key val) key rest

end

/-- `ConfigSource.Set`: store under the literal top-level key, then update
the index (the index reset on mutation is commented out in the source). -/
def ConfigSource.Set (self : ConfigSource) (key : String) (val : Value) :
    ConfigSource :=
  { data := mapInsert self.data key val
    index := updateIndex self.index key val }

/-- The `for key, val := range self.data` loop of `UpdateIndices`. -/
def updateIndicesFold (index : List (String × String)) :
    EntryList → List (String × String)
  | [] => index
  | (k, v) :: rest => updateIndicesFold (updateIndex index k v) rest

/-- `ConfigSource.UpdateIndices`: index every key/value pair of `data`
(the existing index is extended, not cleared). -/
def ConfigSource.UpdateIndices (self : ConfigSource) : ConfigSource :=
  { self with index := updateIndicesFold self.index self.data }

/-- `ConfigSource.FromStringMap`: replace the tree, then `UpdateIndices`. -/
def ConfigSource.FromStringMap (self : ConfigSource) (data : EntryList) :
    ConfigSource :=
  ConfigSource.UpdateIndices { self with data := data }

/-- `ConfigSource.ToStringMap`: the raw tree. -/
def ConfigSource.ToStringMap (self : ConfigSource) : EntryList := self.data

/-! ## EnvSource — `source/env.go`

The process environment (`os.Getenv`) is passed explicitly as `osenv`. -/

/-- `EnvSource` struct: bound logical keys to environment-variable names. -/
structure EnvSource where
  index : List (String × String)
deriving Repr

/-- `NewEnvSource()`. -/
def NewEnvSource : EnvSource := ⟨[]⟩

/-- `envamize`: uppercase and replace dots by underscores. -/
def envamize (key : String) : String := dotToUnderscore (strUpper key)

/-- `os.Getenv`: empty string when the variable is unset. -/
def getenv (osenv : List (String × String)) (name : String) : String :=
  (mapLookup osenv name).getD ""

/-- `EnvSource.Bind(input...)`: no argument is an error; with one argument
the key is `input[0]`, with more it is `input[1]`; the env name is always
`envamize key` and the entry is stored under the lowercased key.  The
second component models the returned `err`. -/
def EnvSource.Bind (self : EnvSource) (input : List String) :
    EnvSource × Option String :=
  match input with
  | [] => (self, some "BindEnv missing key to bind to")
  | [k] => (⟨mapInsert self.index (strLower k) (envamize k)⟩, none)
  | _ :: k :: _ => (⟨mapInsert self.index (strLower k) (envamize k)⟩, none)

/-- `EnvSource.Get`: Go reads `self.index[key]` (zero value `""` when the
key is unbound — it does not lowercase here) and reports found only when
the variable's value is non-empty. -/
def EnvSource.Get (self : EnvSource) (osenv : List (String × String))
    (key : String) : Value × Bool :=
  let envkey := (mapLookup self.index key).getD ""
  let val := getenv osenv envkey
  if val ≠ "" then (Value.vstr val, true) else (Value.vnull, false)

/-! ## PFlagSource — the flag override store

Modelled from the spec: the Go file implementing `PFlagSource` is not among
the provided sources (only its callers in `config.go` are).  Spec §4.5:
the store maps logical keys to externally owned flag handles; `Get(key)`
reports found only when the handle's `Changed()` is true, and then returns
the flag's current string representation. -/

/-- Modelled from the spec: the narrow flag capability — current value as
string and the "explicitly changed by the user" bit (`pflag.Flag`). -/
structure Flag where
  value : String
  changed : Bool
deriving Repr

/-- Modelled from the spec: the override store's key → handle mapping. -/
structure PFlagSource where
  index : List (String × Flag)
deriving Repr

/-- `NewPFlagSource()`. -/
def NewPFlagSource : PFlagSource := ⟨[]⟩

/-- Modelled from the spec: `Bind(key, flagHandle)` registers the handle
under the logical key (`manager.pflags.Set(key, flag)` in `config.go`). -/
def PFlagSource.Set (self : PFlagSource) (key : String) (flag : Flag) :
    PFlagSource :=
  ⟨mapInsert self.index key flag⟩

/-- Modelled from the spec: found only when the underlying flag was
explicitly changed by the user; the value is the flag's string form. -/
def PFlagSource.Get (self : PFlagSource) (key : String) : Value × Bool :=
  match mapLookup self.index key with
  | some flag =>
    if flag.changed then (Value.vstr flag.value, true) else (Value.vnull, false)
  | none => (Value.vnull, false)

/-! ## Deep merge — the `maps` package

Modelled from the spec: the repository's `maps.Merge` source file is not
among the provided sources (only its callers `ReadPaths` and
`MergeAttributes` are).  Spec §4.2: for each key present in the overlay —
if the key is absent in the base, or either side's value at the key is not
a nested tree, the overlay value replaces the base value entirely; if both
are nested trees they merge recursively.  Keys present only in the base
are preserved unchanged. -/

mutual

/-- Modelled from the spec: `maps.Merge(base, overlay)`, as a fold over the
overlay's entries. -/
def mergeMap (base : EntryList) : EntryList → EntryList
  | [] => base
  | (k, ov) :: rest => mergeMap (mergeEntry base k (mapLookup base k) ov) rest
termination_by overlay => sizeOf overlay

/-- Modelled from the spec: the treatment of one overlay entry `(k, ov)`
given the base's value at `k` — recursive merge when both sides are nested
trees, replacement otherwise, append when the key is absent in the base. -/
def mergeEntry (base : EntryList) (k : String) :
    Option Value → Value → EntryList
  | some (Value.vmap bm), Value.vmap om =>
    mapInsert base k (Value.vmap (mergeMap bm om))
  | some _, ov => mapInsert base k ov
  | none, ov => base ++ [(k, ov)]
termination_by _bv ov => sizeOf ov

end

/-! ## ConfigManager — `config.go`

The resolver composing the three sources.  `os.Getenv` is ambient state in
Go, so each querying operation takes the process environment `osenv`
explicitly. -/

/-- `ConfigManager` struct. -/
structure ConfigManager where
  attributes : ConfigSource
  pflags : PFlagSource
  env : EnvSource
deriving Repr

/-- `NewConfiguration()`. -/
def NewConfiguration : ConfigManager :=
  { attributes := NewConfigSource, pflags := NewPFlagSource, env := NewEnvSource }

/-- `ConfigManager.Find`: pflag override first, then environment, then
attributes; each tier is consulted via its `Get` and answers only when it
reports the key present; `nil` when no tier does. -/
def ConfigManager.Find (self : ConfigManager) (osenv : List (String × String))
    (key : String) : Value :=
  let pf := self.pflags.Get key
  if pf.2 then pf.1
  else
    let ev := self.env.Get osenv key
    if ev.2 then ev.1
    else
      let av := self.attributes.Get key
      if av.2 then av.1
      else Value.vnull

/-- The type switch in `ConfigManager.Get`: each branch applies the `cast`
conversion matching the runtime type of the found value, which on this
value space is the identity conversion (`cast.ToBool` of a `bool`,
`cast.ToInt` of any integer width, `cast.ToFloat64` of a float,
`cast.ToString` of a string, `cast.ToTime` of a `time.Time`, and the
explicit pass-through for `[]string` and the default case). -/
def normalize : Value → Value
  | Value.vbool b => Value.vbool b
  | Value.vstr s => Value.vstr s
  | Value.vint n => Value.vint n
  | Value.vfloat q => Value.vfloat q
  | Value.vtime t => Value.vtime t
  | Value.vstrseq xs => Value.vstrseq xs
  | v => v

/-- `ConfigManager.Get`: `Find`, return `nil` for `nil`, otherwise the
type-switch normalization of the found value. -/
def ConfigManager.Get (self : ConfigManager) (osenv : List (String × String))
    (key : String) : Value :=
  match self.Find osenv key with
  | Value.vnull => Value.vnull
  | v => normalize v

/-- `ConfigManager.IsSet`: `Get` is not `nil`. -/
def ConfigManager.IsSet (self : ConfigManager) (osenv : List (String × String))
    (key : String) : Bool :=
  match self.Get osenv key with
  | Value.vnull => false
  | _ => true

/-- `ConfigManager.SetDefault`: write into the attribute store only when
`IsSet` is false. -/
def ConfigManager.SetDefault (self : ConfigManager)
    (osenv : List (String × String)) (key : String) (value : Value) :
    ConfigManager :=
  if self.IsSet osenv key then self
  else { self with attributes := self.attributes.Set key value }

/-- `ConfigManager.Set`: unconditional write into the attribute store. -/
def ConfigManager.Set (self : ConfigManager) (key : String) (value : Value) :
    ConfigManager :=
  { self with attributes := self.attributes.Set key value }

/-- `ConfigManager.BindEnv`: delegate to `EnvSource.Bind`. -/
def ConfigManager.BindEnv (self : ConfigManager) (input : List String) :
    ConfigManager × Option String :=
  let (env', err) := self.env.Bind input
  ({ self with env := env' }, err)

/-- `ConfigManager.MergeAttributes`: deep-merge the decoded value onto the
current attribute tree and write the result back (always returns `nil`
error in Go, so no error component here). -/
def ConfigManager.MergeAttributes (self : ConfigManager) (val : Value) :
    ConfigManager :=
  let merged_config := mergeMap self.attributes.ToStringMap (toStringMap val)
  { self with attributes := self.attributes.FromStringMap merged_config }

/-- The loop of `ConfigManager.ReadPaths`.  The filesystem-plus-decoder
(`reader.Readfile` followed by the string-map coercions, all external
collaborators) is `fs`: `none` is a read or parse failure, `some t` the
decoded document.  On a failure the Go loop appends the error and
`break`s — no later path is attempted.  The accumulated `errs` carries the
failing paths.  (Go's `merged_config == nil` test is omitted:
`NewConfigSource` initializes `data` non-nil, so in this model the merged
tree is never Go-`nil`.) -/
def readPathsLoop (fs : String → Option EntryList) (attrs : ConfigSource)
    (merged_config : EntryList) (errs : List String) :
    List String → ConfigSource × List String
  | [] => (attrs, errs)
  | path :: rest =>
    match fs path with
    | none => (attrs, errs ++ [path])
    | some coerced =>
      let merged' := mergeMap merged_config coerced
      readPathsLoop fs (attrs.FromStringMap merged') merged' errs rest

/-- `ConfigManager.ReadPaths`: fold the paths over the loop starting from
the current attribute tree; the second component is the list of failing
paths wrapped by the returned `LoadError` (empty list = `nil` error). -/
def ConfigManager.ReadPaths (self : ConfigManager)
    (fs : String → Option EntryList) (paths : List String) :
    ConfigManager × List String :=
  let (attrs', errs) :=
    readPathsLoop fs self.attributes self.attributes.ToStringMap [] paths
  ({ self with attributes := attrs' }, errs)

/-! ## Association-list (Go map) lemmas -/

theorem mapLookup_insert_self {α : Type} (m : List (String × α)) (k : String)
    (v : α) : mapLookup (mapInsert m k v) k = some v := by
  induction m with
  | nil => simp [mapInsert, mapLookup]
  | cons p rest ih =>
    obtain ⟨k', v'⟩ := p
    by_cases h : k' = k
    · simp [mapInsert, h, mapLookup]
    · simp [mapInsert, h, mapLookup, ih]

theorem mapLookup_insert_other {α : Type} (m : List (String × α))
    (k q : String) (v : α) (hne : q ≠ k) :
    mapLookup (mapInsert m k v) q = mapLookup m q := by
  induction m with
  | nil => simp [mapInsert, mapLookup, Ne.symm hne]
  | cons p rest ih =>
    obtain ⟨k', v'⟩ := p
    by_cases h : k' = k
    · subst h
      simp [mapInsert, mapLookup, Ne.symm hne]
    · simp only [mapInsert, if_neg h]
      by_cases h2 : k' = q <;> simp [mapLookup, h2, ih]

theorem mapLookup_append {α : Type} (a b : List (String × α)) (k : String) :
    mapLookup (a ++ b) k =
      match mapLookup a k with
      | some v => some v
      | none => mapLookup b k := by
  induction a with
  | nil => simp [mapLookup]
  | cons p rest ih =>
    obtain ⟨k', v'⟩ := p
    by_cases h : k' = k <;> simp [mapLookup, h, ih]

/-- A lookup misses exactly when the key heads no entry. -/
theorem mapLookup_eq_none_iff {α : Type} (m : List (String × α)) (k : String) :
    mapLookup m k = none ↔ k ∉ m.map Prod.fst := by
  induction m with
  | nil => simp [mapLookup]
  | cons p rest ih =>
    obtain ⟨k', v'⟩ := p
    by_cases h : k' = k
    · simp [mapLookup, h]
    · simp only [mapLookup, if_neg h, List.map_cons, List.mem_cons, not_or, ih]
      exact ⟨fun hn => ⟨fun hh => h hh.symm, hn⟩, fun hp => hp.2⟩

/-! ## Well-formedness

A Lean association list represents a Go map only when its keys are
pairwise distinct; `wfV`/`wfE` state this recursively for a value tree.
Every tree produced by a Go decoder or by `mapInsert` chains satisfies it. -/

mutual

/-- Recursive key-uniqueness of a value tree. -/
def wfV : Value → Bool
  | Value.vmap m => wfE m
  | _ => true

/-- Recursive key-uniqueness of a tree's entry list. -/
def wfE : EntryList → Bool
  | [] => true
  | (k, v) :: rest =>
    decide (k ∉ rest.map Prod.fst) && wfV v && wfE rest

end

theorem wfE_nodup (l : EntryList) (h : wfE l = true) :
    (l.map Prod.fst).Nodup := by
  induction l with
  | nil => simp
  | cons p rest ih =>
    obtain ⟨k, v⟩ := p
    simp only [wfE, Bool.and_eq_true, decide_eq_true_eq] at h
    simp only [List.map_cons, List.nodup_cons]
    exact ⟨h.1.1, ih h.2⟩

theorem wfE_lookup (l : EntryList) (k : String) (v : Value)
    (h : wfE l = true) (hl : mapLookup l k = some v) : wfV v = true := by
  induction l with
  | nil => simp [mapLookup] at hl
  | cons p rest ih =>
    obtain ⟨k', v'⟩ := p
    simp only [wfE, Bool.and_eq_true] at h
    by_cases hk : k' = k
    · simp only [mapLookup, if_pos hk, Option.some.injEq] at hl
      subst hl
      exact h.1.2
    · simp only [mapLookup, if_neg hk] at hl
      exact ih h.2 hl

/-- An entry value of a list without duplicate keys is smaller than the
list (used for recursion on nested lookups). -/
theorem mapLookup_sizeOf_lt (l : EntryList) (k : String) (v : Value)
    (hl : mapLookup l k = some v) : sizeOf v < sizeOf l := by
  induction l with
  | nil => simp [mapLookup] at hl
  | cons p rest ih =>
    obtain ⟨k', v'⟩ := p
    by_cases hk : k' = k
    · simp only [mapLookup, if_pos hk, Option.some.injEq] at hl
      subst hl
      simp only [List.cons.sizeOf_spec, Prod.mk.sizeOf_spec]
      omega
    · simp only [mapLookup, if_neg hk] at hl
      have := ih hl
      simp only [List.cons.sizeOf_spec]
      omega

/-- An insert's key list: unchanged when the key was present, the key
appended otherwise. -/
theorem mapInsert_keys {α : Type} (m : List (String × α)) (k : String)
    (v : α) :
    (mapInsert m k v).map Prod.fst =
      if k ∈ m.map Prod.fst then m.map Prod.fst else m.map Prod.fst ++ [k] := by
  induction m with
  | nil => simp [mapInsert]
  | cons p rest ih =>
    obtain ⟨k', v'⟩ := p
    by_cases h : k' = k
    · simp [mapInsert, h]
    · have : ¬ k = k' := fun hh => h hh.symm
      by_cases hmem : k ∈ rest.map Prod.fst <;>
        simp [mapInsert, h, ih, this, hmem]

/-! ## Deep-merge characterization -/

/-- The merged value at one key, given the base's value there (if any) and
the overlay's value: recursive merge when both are trees, the overlay
value otherwise. -/
def mergeValueAt (bv : Option Value) (ov : Value) : Value :=
  match bv, ov with
  | some (Value.vmap bm), Value.vmap om => Value.vmap (mergeMap bm om)
  | _, ov => ov

theorem mergeValueAt_none (ov : Value) : mergeValueAt none ov = ov := by
  cases ov <;> rfl

/-- `mergeEntry` leaves every other key's lookup unchanged. -/
theorem mergeEntry_lookup_other (b : EntryList) (k : String)
    (bv : Option Value) (ov : Value) (q : String) (hq : q ≠ k) :
    mapLookup (mergeEntry b k bv ov) q = mapLookup b q := by
  rcases bv with _ | v
  · rw [show mergeEntry b k none ov = b ++ [(k, ov)] by cases ov <;> simp [mergeEntry]]
    rw [mapLookup_append]
    cases hb : mapLookup b q <;>
      simp [mapLookup, Ne.symm hq]
  · cases v <;> cases ov <;>
      simp [mergeEntry, mapLookup_insert_other _ _ _ _ hq]

/-- `mergeEntry` resolves its own key to the merged value. -/
theorem mergeEntry_lookup_self (b : EntryList) (k : String) (ov : Value) :
    mapLookup (mergeEntry b k (mapLookup b k) ov) k =
      some (mergeValueAt (mapLookup b k) ov) := by
  rcases hbv : mapLookup b k with _ | v
  · rw [show mergeEntry b k none ov = b ++ [(k, ov)] by cases ov <;> simp [mergeEntry]]
    rw [mapLookup_append, hbv, mergeValueAt_none]
    simp [mapLookup]
  · cases v <;> cases ov <;>
      simp [mergeEntry, mergeValueAt, mapLookup_insert_self]

/-- Pointwise characterization of the deep merge: a key absent from the
overlay keeps the base's value; a key present in the overlay resolves to
`mergeValueAt` of the two sides.  The overlay must have unique top-level
keys (true of every decoded Go map). -/
theorem mapLookup_mergeMap :
    ∀ (d : EntryList), (d.map Prod.fst).Nodup →
    ∀ (b : EntryList) (k : String),
    mapLookup (mergeMap b d) k =
      match mapLookup d k with
      | none => mapLookup b k
      | some ov => some (mergeValueAt (mapLookup b k) ov) := by
  intro d
  induction d with
  | nil =>
    intro _ b k
    simp [mergeMap, mapLookup]
  | cons p rest ih =>
    intro hnd b k
    obtain ⟨k', ov'⟩ := p
    simp only [List.map_cons, List.nodup_cons] at hnd
    rw [show mergeMap b ((k', ov') :: rest)
          = mergeMap (mergeEntry b k' (mapLookup b k') ov') rest by
        simp [mergeMap]]
    rw [ih hnd.2]
    by_cases hkk : k' = k
    · subst hkk
      have hrest : mapLookup rest k' = none :=
        (mapLookup_eq_none_iff rest k').2 hnd.1
      rw [hrest]
      simp only [mapLookup, if_pos rfl]
      exact mergeEntry_lookup_self b k' ov'
    · rw [mergeEntry_lookup_other b k' _ ov' k (fun h => hkk h.symm)]
      simp only [mapLookup, if_neg hkk]

/-- `mergeEntry` keeps the base's key list, appending the key only when it
was absent. -/
theorem mergeEntry_keys (b : EntryList) (k : String) (ov : Value) :
    (mergeEntry b k (mapLookup b k) ov).map Prod.fst =
      match mapLookup b k with
      | some _ => b.map Prod.fst
      | none => b.map Prod.fst ++ [k] := by
  rcases hbv : mapLookup b k with _ | v
  · rw [show mergeEntry b k none ov = b ++ [(k, ov)] by cases ov <;> simp [mergeEntry]]
    simp
  · have hmem : k ∈ b.map Prod.fst := by
      by_contra hmem
      rw [(mapLookup_eq_none_iff b k).2 hmem] at hbv
      cases hbv
    cases v <;> cases ov <;> simp [mergeEntry, mapInsert_keys, hmem]

/-- The merged key list: the base's keys followed by the overlay keys that
the base lacked. -/
theorem mergeMap_keys :
    ∀ (d : EntryList), (d.map Prod.fst).Nodup → ∀ (b : EntryList),
    (mergeMap b d).map Prod.fst =
      b.map Prod.fst ++
        (d.filter (fun q => (mapLookup b q.1).isNone)).map Prod.fst := by
  intro d
  induction d with
  | nil =>
    intro _ b
    simp [mergeMap]
  | cons p rest ih =>
    intro hnd b
    obtain ⟨k', ov'⟩ := p
    simp only [List.map_cons, List.nodup_cons] at hnd
    rw [show mergeMap b ((k', ov') :: rest)
          = mergeMap (mergeEntry b k' (mapLookup b k') ov') rest by
        simp [mergeMap]]
    rw [ih hnd.2]
    have hfilter :
        rest.filter
            (fun q => (mapLookup (mergeEntry b k' (mapLookup b k') ov') q.1).isNone)
          = rest.filter (fun q => (mapLookup b q.1).isNone) := by
      apply List.filter_congr
      intro q hq
      have hqk : q.1 ≠ k' := by
        intro h
        exact hnd.1 (h ▸ List.mem_map_of_mem Prod.fst hq)
      rw [mergeEntry_lookup_other b k' _ ov' q.1 hqk]
    rw [hfilter, mergeEntry_keys]
    rcases hbv : mapLookup b k' with _ | v
    · simp [List.filter_cons, hbv]
    · simp [List.filter_cons, hbv]

/-- Two association lists with the same (duplicate-free) key sequence and
the same lookups are equal. -/
theorem entryList_ext {α : Type} :
    ∀ (l1 l2 : List (String × α)),
    l1.map Prod.fst = l2.map Prod.fst →
    (l1.map Prod.fst).Nodup →
    (∀ k, mapLookup l1 k = mapLookup l2 k) → l1 = l2 := by
  intro l1
  induction l1 with
  | nil =>
    intro l2 hk _ _
    symm
    simpa using hk.symm
  | cons p t1 ih =>
    intro l2 hk hnd hl
    obtain ⟨k, v⟩ := p
    cases l2 with
    | nil => simp at hk
    | cons p2 t2 =>
      obtain ⟨k2, v2⟩ := p2
      simp only [List.map_cons, List.cons.injEq] at hk
      obtain ⟨hk2, htk⟩ := hk
      subst hk2
      simp only [List.map_cons, List.nodup_cons] at hnd
      have hv : v = v2 := by
        have := hl k
        simpa [mapLookup] using this
      have htails : ∀ q, mapLookup t1 q = mapLookup t2 q := by
        intro q
        by_cases hq : q = k
        · subst hq
          rw [(mapLookup_eq_none_iff t1 q).2 hnd.1,
            (mapLookup_eq_none_iff t2 q).2 (htk ▸ hnd.1)]
        · have hkq : ¬ k = q := fun h => hq h.symm
          have := hl q
          simpa [mapLookup, hkq] using this
      rw [hv, ih t2 htk hnd.2 htails]

/-- Every key of the overlay resolves in the merged list, so re-filtering
the overlay against the merged list keeps nothing. -/
theorem mergeMap_filter_nil (d : EntryList) (hnd : (d.map Prod.fst).Nodup)
    (b : EntryList) :
    d.filter (fun q => (mapLookup (mergeMap b d) q.1).isNone) = [] := by
  rw [List.filter_eq_nil_iff]
  intro q hq
  rw [mapLookup_mergeMap d hnd b q.1]
  rcases hov : mapLookup d q.1 with _ | ov
  · exact absurd ((mapLookup_eq_none_iff d q.1).1 hov)
      (fun h => h (List.mem_map_of_mem Prod.fst hq))
  · simp

/-- Size bound used for recursion into nested overlay values. -/
theorem mapLookup_vmap_sizeOf_lt (l : EntryList) (k : String)
    (om : EntryList) (hl : mapLookup l k = some (Value.vmap om)) :
    sizeOf om < sizeOf l := by
  have h1 := mapLookup_sizeOf_lt l k _ hl
  have h2 : sizeOf om < sizeOf (Value.vmap om) := by
    simp only [Value.vmap.sizeOf_spec]
    omega
  omega

/-- Filtering a list by missing self-lookups keeps nothing. -/
theorem filter_lookup_self_nil (x : EntryList) :
    x.filter (fun q => (mapLookup x q.1).isNone) = [] := by
  rw [List.filter_eq_nil_iff]
  intro q hq
  rcases hov : mapLookup x q.1 with _ | ov
  · exact absurd ((mapLookup_eq_none_iff x q.1).1 hov)
      (fun h => h (List.mem_map_of_mem Prod.fst hq))
  · simp

/-- Deep-merging a duplicate-free tree onto itself is the identity. -/
theorem mergeMap_self_aux :
    ∀ (n : Nat) (x : EntryList), sizeOf x ≤ n → wfE x = true →
    mergeMap x x = x := by
  intro n
  induction n with
  | zero =>
    intro x hx _
    exfalso
    cases x <;> simp at hx
  | succ n ihn =>
    intro x hx hwf
    have hnd := wfE_nodup x hwf
    apply entryList_ext
    · rw [mergeMap_keys x hnd x, filter_lookup_self_nil]
      simp
    · rw [mergeMap_keys x hnd x, filter_lookup_self_nil]
      simpa using hnd
    · intro k
      rw [mapLookup_mergeMap x hnd x k]
      rcases hov : mapLookup x k with _ | ov
      · rfl
      · simp only [Option.some.injEq]
        cases ov with
        | vmap om =>
          have hsz : sizeOf om ≤ n := by
            have := mapLookup_vmap_sizeOf_lt x k om hov
            omega
          have hwfom : wfE om = true := by
            have := wfE_lookup x k _ hwf hov
            simpa [wfV] using this
          simp only [mergeValueAt]
          rw [ihn om hsz hwfom]
        | vnull => rfl
        | vbool b => rfl
        | vint nn => rfl
        | vfloat q => rfl
        | vstr s => rfl
        | vtime t => rfl
        | vseq xs => rfl
        | vstrseq xs => rfl

/-- `mergeMap_self_aux` without the explicit bound. -/
theorem mergeMap_self (x : EntryList) (hwf : wfE x = true) :
    mergeMap x x = x :=
  mergeMap_self_aux (sizeOf x) x le_rfl hwf

/-- Merging preserves key uniqueness. -/
theorem mergeMap_keys_nodup (d : EntryList) (hnd_d : (d.map Prod.fst).Nodup)
    (b : EntryList) (hnd_b : (b.map Prod.fst).Nodup) :
    ((mergeMap b d).map Prod.fst).Nodup := by
  rw [mergeMap_keys d hnd_d b, List.nodup_append]
  refine ⟨hnd_b, ?_, ?_⟩
  · exact hnd_d.sublist ((List.filter_sublist d).map Prod.fst)
  · intro a ha hmem
    obtain ⟨q, hqf, hqa⟩ := List.mem_map.1 hmem
    have := List.mem_filter.1 hqf
    rw [hqa, Option.isNone_iff_eq_none, mapLookup_eq_none_iff] at this
    exact this.2 ha

/-- Merging the same duplicate-free overlay twice is the same as merging
it once. -/
theorem mergeMap_twice_aux :
    ∀ (n : Nat) (d : EntryList), sizeOf d ≤ n → wfE d = true →
    ∀ (b : EntryList), wfE b = true →
    mergeMap (mergeMap b d) d = mergeMap b d := by
  intro n
  induction n with
  | zero =>
    intro d hd _
    exfalso
    cases d <;> simp at hd
  | succ n ihn =>
    intro d hd hwfd b hwfb
    have hnd_d := wfE_nodup d hwfd
    have hnd_b := wfE_nodup b hwfb
    have hnd_m := mergeMap_keys_nodup d hnd_d b hnd_b
    apply entryList_ext
    · rw [mergeMap_keys d hnd_d (mergeMap b d), mergeMap_filter_nil d hnd_d b]
      simp
    · rw [mergeMap_keys d hnd_d (mergeMap b d), mergeMap_filter_nil d hnd_d b]
      simpa using hnd_m
    · intro k
      rw [mapLookup_mergeMap d hnd_d (mergeMap b d) k,
        mapLookup_mergeMap d hnd_d b k]
      rcases hov : mapLookup d k with _ | ov
      · rfl
      · simp only [Option.some.injEq]
        rcases hbv : mapLookup b k with _ | bv
        · rw [mergeValueAt_none]
          cases ov with
          | vmap om =>
            have hsz : sizeOf om ≤ n := by
              have := mapLookup_vmap_sizeOf_lt d k om hov
              omega
            have hwfom : wfE om = true := by
              have := wfE_lookup d k _ hwfd hov
              simpa [wfV] using this
            simp only [mergeValueAt]
            rw [mergeMap_self om hwfom]
          | vnull => rfl
          | vbool b' => rfl
          | vint nn => rfl
          | vfloat q => rfl
          | vstr s => rfl
          | vtime t => rfl
          | vseq xs => rfl
          | vstrseq xs => rfl
        · cases bv with
          | vmap bm =>
            cases ov with
            | vmap om =>
              have hsz : sizeOf om ≤ n := by
                have := mapLookup_vmap_sizeOf_lt d k om hov
                omega
              have hwfom : wfE om = true := by
                have := wfE_lookup d k _ hwfd hov
                simpa [wfV] using this
              have hwfbm : wfE bm = true := by
                have := wfE_lookup b k _ hwfb hbv
                simpa [wfV] using this
              simp only [mergeValueAt]
              rw [ihn om hsz hwfom bm hwfbm]
            | vnull => rfl
            | vbool b' => rfl
            | vint nn => rfl
            | vfloat q => rfl
            | vstr s => rfl
            | vtime t => rfl
            | vseq xs => rfl
            | vstrseq xs => rfl
          | vnull =>
            cases ov with
            | vmap om =>
              have hwfom : wfE om = true := by
                have := wfE_lookup d k _ hwfd hov
                simpa [wfV] using this
              simp only [mergeValueAt]
              rw [mergeMap_self om hwfom]
            | vnull => rfl
            | vbool b' => rfl
            | vint nn => rfl
            | vfloat q => rfl
            | vstr s => rfl
            | vtime t => rfl
            | vseq xs => rfl
            | vstrseq xs => rfl
          | vbool bb =>
            cases ov with
            | vmap om =>
              have hwfom : wfE om = true := by
                have := wfE_lookup d k _ hwfd hov
                simpa [wfV] using this
              simp only [mergeValueAt]
              rw [mergeMap_self om hwfom]
            | vnull => rfl
            | vbool b' => rfl
            | vint nn => rfl
            | vfloat q => rfl
            | vstr s => rfl
            | vtime t => rfl
            | vseq xs => rfl
            | vstrseq xs => rfl
          | vint ni =>
            cases ov with
            | vmap om =>
              have hwfom : wfE om = true := by
                have := wfE_lookup d k _ hwfd hov
                simpa [wfV] using this
              simp only [mergeValueAt]
              rw [mergeMap_self om hwfom]
            | vnull => rfl
            | vbool b' => rfl
            | vint nn => rfl
            | vfloat q => rfl
            | vstr s => rfl
            | vtime t => rfl
            | vseq xs => rfl
            | vstrseq xs => rfl
          | vfloat qf =>
            cases ov with
            | vmap om =>
              have hwfom : wfE om = true := by
                have := wfE_lookup d k _ hwfd hov
                simpa [wfV] using this
              simp only [mergeValueAt]
              rw [mergeMap_self om hwfom]
            | vnull => rfl
            | vbool b' => rfl
            | vint nn => rfl
            | vfloat q => rfl
            | vstr s => rfl
            | vtime t => rfl
            | vseq xs => rfl
            | vstrseq xs => rfl
          | vstr sv =>
            cases ov with
            | vmap om =>
              have hwfom : wfE om = true := by
                have := wfE_lookup d k _ hwfd hov
                simpa [wfV] using this
              simp only [mergeValueAt]
              rw [mergeMap_self om hwfom]
            | vnull => rfl
            | vbool b' => rfl
            | vint nn => rfl
            | vfloat q => rfl
            | vstr s => rfl
            | vtime t => rfl
            | vseq xs => rfl
            | vstrseq xs => rfl
          | vtime tv =>
            cases ov with
            | vmap om =>
              have hwfom : wfE om = true := by
                have := wfE_lookup d k _ hwfd hov
                simpa [wfV] using this
              simp only [mergeValueAt]
              rw [mergeMap_self om hwfom]
            | vnull => rfl
            | vbool b' => rfl
            | vint nn => rfl
            | vfloat q => rfl
            | vstr s => rfl
            | vtime t => rfl
            | vseq xs => rfl
            | vstrseq xs => rfl
          | vseq xsv =>
            cases ov with
            | vmap om =>
              have hwfom : wfE om = true := by
                have := wfE_lookup d k _ hwfd hov
                simpa [wfV] using this
              simp only [mergeValueAt]
              rw [mergeMap_self om hwfom]
            | vnull => rfl
            | vbool b' => rfl
            | vint nn => rfl
            | vfloat q => rfl
            | vstr s => rfl
            | vtime t => rfl
            | vseq xs => rfl
            | vstrseq xs => rfl
          | vstrseq xsv =>
            cases ov with
            | vmap om =>
              have hwfom : wfE om = true := by
                have := wfE_lookup d k _ hwfd hov
                simpa [wfV] using this
              simp only [mergeValueAt]
              rw [mergeMap_self om hwfom]
            | vnull => rfl
            | vbool b' => rfl
            | vint nn => rfl
            | vfloat q => rfl
            | vstr s => rfl
            | vtime t => rfl
            | vseq xs => rfl
            | vstrseq xs => rfl

/-- `mergeMap_twice_aux` without the explicit bound. -/
theorem mergeMap_twice (d : EntryList) (hwfd : wfE d = true)
    (b : EntryList) (hwfb : wfE b = true) :
    mergeMap (mergeMap b d) d = mergeMap b d :=
  mergeMap_twice_aux (sizeOf d) d le_rfl hwfd b hwfb

/-! ## Index-update lemmas -/

theorem strLower_length (s : String) : (strLower s).length = s.length := by
  rcases s with ⟨data⟩
  show (String.mk (data.map charLower)).data.length = (String.mk data).data.length
  simp

theorem strLower_empty_iff (s : String) : s.length = 0 → s = "" := by
  intro h
  cases s with
  | mk data =>
    cases data with
    | nil => rfl
    | cons c cs => simp [String.length] at h

/-- The dot-joined child key is strictly longer than the parent key. -/
theorem joined_length (key ck : String) :
    (key ++ "." ++ ck).length = key.length + 1 + ck.length := by
  have hdot : ".".length = 1 := rfl
  rw [String.length_append, String.length_append, hdot]

/-- `updateIndex` touches only entries at keys no shorter than the updated
key, so lookups at strictly shorter keys are unchanged. -/
theorem updateIndex_shorter_aux :
    ∀ (n : Nat),
    (∀ (v : Value), sizeOf v ≤ n →
      ∀ (idx : List (String × String)) (key q : String),
        q.length < key.length →
        mapLookup (updateIndex idx key v) q = mapLookup idx q)
    ∧ (∀ (m : EntryList), sizeOf m ≤ n →
      ∀ (idx : List (String × String)) (key q : String),
        q.length < key.length →
        mapLookup (updateIndexChildren idx key m) q = mapLookup idx q) := by
  intro n
  induction n with
  | zero =>
    constructor
    · intro v hv
      exfalso
      cases v <;> simp at hv
    · intro m hm
      exfalso
      cases m <;> simp at hm
  | succ n ihn =>
    obtain ⟨ihv, ihm⟩ := ihn
    constructor
    · intro v hv idx key q hq
      have hqlow : q ≠ strLower key := by
        intro h
        rw [h, strLower_length] at hq
        omega
      cases v with
      | vnull => simp [updateIndex]
      | vmap m =>
        have hm : sizeOf m ≤ n := by
          simp only [Value.vmap.sizeOf_spec] at hv
          omega
        rw [show updateIndex idx key (Value.vmap m)
              = updateIndexChildren (mapInsert idx (strLower key) key) key m by
            simp [updateIndex]]
        rw [ihm m hm _ key q hq]
        exact mapLookup_insert_other idx (strLower key) q key hqlow
      | vbool b => simp [updateIndex, mapLookup_insert_other _ _ _ _ hqlow]
      | vint nn => simp [updateIndex, mapLookup_insert_other _ _ _ _ hqlow]
      | vfloat qq => simp [updateIndex, mapLookup_insert_other _ _ _ _ hqlow]
      | vstr s => simp [updateIndex, mapLookup_insert_other _ _ _ _ hqlow]
      | vtime t => simp [updateIndex, mapLookup_insert_other _ _ _ _ hqlow]
      | vseq xs => simp [updateIndex, mapLookup_insert_other _ _ _ _ hqlow]
      | vstrseq xs => simp [updateIndex, mapLookup_insert_other _ _ _ _ hqlow]
    · intro m hm idx key q hq
      cases m with
      | nil => simp [updateIndexChildren]
      | cons p rest =>
        obtain ⟨ck, val⟩ := p
        have hkey : key.length > 0 := by omega
        have hrest : sizeOf rest ≤ n := by
          simp only [List.cons.sizeOf_spec] at hm
          omega
        have hval : sizeOf val ≤ n := by
          simp only [List.cons.sizeOf_spec, Prod.mk.sizeOf_spec] at hm
          omega
        rw [show updateIndexChildren idx key ((ck, val) :: rest)
              = updateIndexChildren
                  (updateIndex idx (key ++ "." ++ ck) val) key rest by
            simp [updateIndexChildren, hkey]]
        rw [ihm rest hrest _ key q hq]
        apply ihv val hval
        rw [joined_length]
        omega

/-- `updateIndex` on a non-null value establishes the index entry from the
lowercased key to the key itself (and the child walk preserves it). -/
theorem updateIndex_self_aux :
    ∀ (n : Nat),
    (∀ (v : Value), sizeOf v ≤ n →
      ∀ (idx : List (String × String)) (key : String),
        (mapLookup idx (strLower key) = some key ∨ v ≠ Value.vnull) →
        mapLookup (updateIndex idx key v) (strLower key) = some key)
    ∧ (∀ (m : EntryList), sizeOf m ≤ n →
      ∀ (idx : List (String × String)) (key : String),
        mapLookup idx (strLower key) = some key →
        mapLookup (updateIndexChildren idx key m) (strLower key) = some key) := by
  intro n
  induction n with
  | zero =>
    constructor
    · intro v hv
      exfalso
      cases v <;> simp at hv
    · intro m hm
      exfalso
      cases m <;> simp at hm
  | succ n ihn =>
    obtain ⟨ihv, ihm⟩ := ihn
    constructor
    · intro v hv idx key hpre
      cases v with
      | vnull =>
        rcases hpre with hpre | hpre
        · simpa [updateIndex] using hpre
        · exact absurd rfl hpre
      | vmap m =>
        have hm : sizeOf m ≤ n := by
          simp only [Value.vmap.sizeOf_spec] at hv
          omega
        rw [show updateIndex idx key (Value.vmap m)
              = updateIndexChildren (mapInsert idx (strLower key) key) key m by
            simp [updateIndex]]
        exact ihm m hm _ key (mapLookup_insert_self idx (strLower key) key)
      | vbool b => simp [updateIndex, mapLookup_insert_self]
      | vint nn => simp [updateIndex, mapLookup_insert_self]
      | vfloat qq => simp [updateIndex, mapLookup_insert_self]
      | vstr s => simp [updateIndex, mapLookup_insert_self]
      | vtime t => simp [updateIndex, mapLookup_insert_self]
      | vseq xs => simp [updateIndex, mapLookup_insert_self]
      | vstrseq xs => simp [updateIndex, mapLookup_insert_self]
    · intro m hm idx key hpre
      cases m with
      | nil => simpa [updateIndexChildren] using hpre
      | cons p rest =>
        obtain ⟨ck, val⟩ := p
        have hrest : sizeOf rest ≤ n := by
          simp only [List.cons.sizeOf_spec] at hm
          omega
        have hval : sizeOf val ≤ n := by
          simp only [List.cons.sizeOf_spec, Prod.mk.sizeOf_spec] at hm
          omega
        by_cases hkey : key.length > 0
        · rw [show updateIndexChildren idx key ((ck, val) :: rest)
                = updateIndexChildren
                    (updateIndex idx (key ++ "." ++ ck) val) key rest by
              simp [updateIndexChildren, hkey]]
          apply ihm rest hrest _ key
          rw [(updateIndex_shorter_aux (sizeOf val)).1 val le_rfl idx
            (key ++ "." ++ ck) (strLower key) (by rw [strLower_length, joined_length]; omega)]
          exact hpre
        · have hk0 : key = "" := strLower_empty_iff key (by omega)
          subst hk0
          rw [show updateIndexChildren idx "" ((ck, val) :: rest)
                = updateIndexChildren (updateIndex idx "" val) "" rest by
              simp [updateIndexChildren, String.length]]
          exact ihm rest hrest _ "" (ihv val hval idx "" (Or.inl hpre))

/-- After `updateIndex` with a non-null value, the lowercased key resolves
to the key. -/
theorem updateIndex_lookup_self (idx : List (String × String)) (key : String)
    (v : Value) (hv : v ≠ Value.vnull) :
    mapLookup (updateIndex idx key v) (strLower key) = some key :=
  (updateIndex_self_aux (sizeOf v)).1 v le_rfl idx key (Or.inr hv)

/-- `ConfigSource.Set` with a non-null value makes `Get` of the same key
(in any casing with the same lowercase form) return exactly that value. -/
theorem configSource_set_get (s : ConfigSource) (k q : String) (v : Value)
    (hv : v ≠ Value.vnull) (hq : strLower q = strLower k) :
    (s.Set k v).Get q = (v, true) := by
  unfold ConfigSource.Set ConfigSource.Get
  simp only [hq]
  rw [updateIndex_lookup_self s.index k v hv]
  simp [mapLookup_insert_self]

/-! ## Resolver helper lemmas -/

/-- The `Get` type switch is the identity on this value space. -/
theorem normalize_id (v : Value) : normalize v = v := by
  cases v <;> rfl

/-- `Get` coincides with `Find` (the type switch normalizes nothing on
this value space). -/
theorem get_eq_find (m : ConfigManager) (osenv : List (String × String))
    (key : String) : m.Get osenv key = m.Find osenv key := by
  unfold ConfigManager.Get
  rcases h : m.Find osenv key <;> simp [normalize]

/-- `IsSet` is exactly "`Find` is not the nil sentinel". -/
theorem isSet_iff_find_ne (m : ConfigManager) (osenv : List (String × String))
    (key : String) :
    m.IsSet osenv key = true ↔ m.Find osenv key ≠ Value.vnull := by
  unfold ConfigManager.IsSet
  rw [get_eq_find]
  rcases h : m.Find osenv key <;> simp

/-- A hit in the flag tier carries a string value. -/
theorem pflag_get_spec (p : PFlagSource) (key : String)
    (h : (p.Get key).2 = true) :
    ∃ f, mapLookup p.index key = some f ∧ f.changed = true ∧
      (p.Get key).1 = Value.vstr f.value := by
  rcases hf : mapLookup p.index key with _ | f
  · exfalso
    unfold PFlagSource.Get at h
    rw [hf] at h
    simp at h
  · by_cases hc : f.changed = true
    · refine ⟨f, rfl, hc, ?_⟩
      unfold PFlagSource.Get
      rw [hf]
      simp [hc]
    · exfalso
      unfold PFlagSource.Get at h
      rw [hf] at h
      simp [hc] at h

/-- A hit in the environment tier carries the (non-empty) variable value
as a string. -/
theorem env_get_spec (e : EnvSource) (osenv : List (String × String))
    (key : String) (h : (e.Get osenv key).2 = true) :
    (e.Get osenv key).1
      = Value.vstr (getenv osenv ((mapLookup e.index key).getD ""))
    ∧ getenv osenv ((mapLookup e.index key).getD "") ≠ "" := by
  by_cases hv : getenv osenv ((mapLookup e.index key).getD "") = ""
  · exfalso
    unfold EnvSource.Get at h
    simp [hv] at h
  · exact ⟨by simp [EnvSource.Get, hv], hv⟩

/-- When `Find` misses, every tier reported the key absent (the flag and
environment tiers, which always carry non-null string values on a hit,
reported not-present; the attribute tier reported not-present or a stored
null). -/
theorem find_vnull_tiers (m : ConfigManager) (osenv : List (String × String))
    (key : String) (h : m.Find osenv key = Value.vnull) :
    (m.pflags.Get key).2 = false ∧ (m.env.Get osenv key).2 = false := by
  unfold ConfigManager.Find at h
  by_cases hp : (m.pflags.Get key).2
  · obtain ⟨f, _, _, hval⟩ := pflag_get_spec m.pflags key hp
    rw [if_pos hp, hval] at h
    cases h
  · rw [if_neg hp] at h
    by_cases he : (m.env.Get osenv key).2
    · obtain ⟨hval, _⟩ := env_get_spec m.env osenv key he
      rw [if_pos he, hval] at h
      cases h
    · exact ⟨by simpa using hp, by simpa using he⟩

/-! ## Claim theorems -/

/-- C9: attribute-tier access is case-insensitive without altering stored
casing: after `Set("Clothing.Jacket", "leather")` on a fresh store, `Get`
of `"clothing.jacket"` and of `"CLOTHING.JACKET"` both return `"leather"`
(at the `ConfigSource` tier and through the resolver), while the data tree
keeps the original spelling `"Clothing.Jacket"`. -/
theorem claim_C9_case_insensitive_attribute_access :
    (NewConfigSource.Set "Clothing.Jacket" (Value.vstr "leather")).Get
        "clothing.jacket" = (Value.vstr "leather", true)
    ∧ (NewConfigSource.Set "Clothing.Jacket" (Value.vstr "leather")).Get
        "CLOTHING.JACKET" = (Value.vstr "leather", true)
    ∧ (NewConfiguration.Set "Clothing.Jacket" (Value.vstr "leather")).Get []
        "clothing.jacket" = Value.vstr "leather"
    ∧ (NewConfiguration.Set "Clothing.Jacket" (Value.vstr "leather")).Get []
        "CLOTHING.JACKET" = Value.vstr "leather"
    ∧ (NewConfigSource.Set "Clothing.Jacket" (Value.vstr "leather")).data
        = [("Clothing.Jacket", Value.vstr "leather")] :=
  ⟨rfl, rfl, rfl, rfl, rfl⟩

/-- C5 (code bug): `ConfigManager.Get` does not lowercase the queried key,
so a key that resolves through the environment tier under its lowercase
spelling resolves to nil under a mixed-case spelling: after
`BindEnv("app.level")` with `APP_LEVEL=trace` in the environment,
`Get(lowercase "App.Level")` is `"trace"` but `Get("App.Level")` is nil —
the repository's own ancestor code embedded in its test file lowercases in
`Get`, and its "Insensitivity after mutation" test requires it. -/
theorem claim_C5_get_missing_lowercase_divergence :
    (NewConfiguration.BindEnv ["app.level"]).1.Get [("APP_LEVEL", "trace")]
        (strLower "App.Level") = Value.vstr "trace"
    ∧ (NewConfiguration.BindEnv ["app.level"]).1.Get [("APP_LEVEL", "trace")]
        "App.Level" = Value.vnull :=
  ⟨rfl, rfl⟩

/-- The file system of the C2 run: `base.yaml` decodes to a one-entry
document, every other path fails to read. -/
def fsBaseOnly : String → Option EntryList := fun path =>
  if path = "base.yaml" then
    some [("app", Value.vmap [("x", Value.vint 1)])]
  else none

/-- C2 (code bug): the `ReadPaths` loop `break`s on the first failing
path: with the failing path first, the following readable `base.yaml` is
never loaded (the attribute tree stays empty) and the aggregate error
holds only the first failing path — while `base.yaml` alone loads fine.
The spec (and the function's own "search paths" comment) require the loop
to continue past a failing path. -/
theorem claim_C2_readpaths_aborts_on_error :
    (NewConfiguration.ReadPaths fsBaseOnly
        ["missing.yaml", "base.yaml"]).1.attributes.data = []
    ∧ (NewConfiguration.ReadPaths fsBaseOnly
        ["missing.yaml", "base.yaml"]).2 = ["missing.yaml"]
    ∧ (NewConfiguration.ReadPaths fsBaseOnly ["base.yaml"]).1.attributes.data
        = [("app", Value.vmap [("x", Value.vint 1)])] := by
  refine ⟨rfl, rfl, ?_⟩
  simp [ConfigManager.ReadPaths, readPathsLoop, fsBaseOnly, NewConfiguration,
    NewConfigSource, NewPFlagSource, NewEnvSource, mergeMap, mergeEntry,
    mapLookup, mapInsert, ConfigSource.FromStringMap,
    ConfigSource.UpdateIndices, ConfigSource.ToStringMap, updateIndicesFold,
    updateIndex]

/-- C3 counterexample: a null-valued leaf path receives no index entry at
all and is not resolvable by `Get` — after loading the tree `{a: null}`
into a fresh store, the index is empty and `Get "a"` misses, contrary to
the claim that the path still receives an entry and stays resolvable. -/
theorem claim_C3_null_entry_counterexample :
    (NewConfigSource.FromStringMap [("a", Value.vnull)]).index = []
    ∧ (NewConfigSource.FromStringMap [("a", Value.vnull)]).Get "a"
        = (Value.vnull, false) :=
  ⟨rfl, rfl⟩

/-- C4 counterexample: loading `{a: 1}` and then replacing it wholesale
with `{b: 2}` leaves the stale entry for the unreachable path `"a"` in the
index — the rebuild does not clear. -/
theorem claim_C4_stale_index_counterexample :
    ((NewConfigSource.FromStringMap [("a", Value.vint 1)]).FromStringMap
        [("b", Value.vint 2)]).data = [("b", Value.vint 2)]
    ∧ "a" ∉ (((NewConfigSource.FromStringMap [("a", Value.vint 1)]).FromStringMap
        [("b", Value.vint 2)]).data.map Prod.fst)
    ∧ mapLookup ((NewConfigSource.FromStringMap
        [("a", Value.vint 1)]).FromStringMap [("b", Value.vint 2)]).index "a"
        = some "a" := by
  refine ⟨rfl, ?_, rfl⟩
  simp [NewConfigSource, ConfigSource.FromStringMap, ConfigSource.UpdateIndices,
    updateIndicesFold, updateIndex]

/-- C1: `Find` consults the flag-override source, then the
environment-binding source, then the attribute store, in that order,
returning the first source that reports the key present and the nil
sentinel when none does; the flag tier is present exactly when the bound
flag was explicitly changed, and the environment tier exactly when the key
is bound and its variable is non-empty (assuming the OS invariant that the
empty variable name is unset). -/
theorem claim_C1_find_precedence_chain (m : ConfigManager)
    (osenv : List (String × String)) (key : String)
    (hos : getenv osenv "" = "") :
    (m.Find osenv key =
      if (m.pflags.Get key).2 then (m.pflags.Get key).1
      else if (m.env.Get osenv key).2 then (m.env.Get osenv key).1
      else if (m.attributes.Get key).2 then (m.attributes.Get key).1
      else Value.vnull)
    ∧ ((m.pflags.Get key).2 = true ↔
        ∃ f, mapLookup m.pflags.index key = some f ∧ f.changed = true)
    ∧ ((m.env.Get osenv key).2 = true ↔
        ∃ e, mapLookup m.env.index key = some e ∧ getenv osenv e ≠ "") := by
  refine ⟨rfl, ?_, ?_⟩
  · unfold PFlagSource.Get
    rcases hf : mapLookup m.pflags.index key with _ | f
    · simp
    · by_cases hc : f.changed = true <;> simp [hc]
  · unfold EnvSource.Get
    rcases he : mapLookup m.env.index key with _ | e
    · simp [hos]
    · by_cases hv : getenv osenv e = "" <;> simp [hv]

/-- Witness for C1 at a concrete state: one bound environment key, the
variable set to `trace`; the hypothesis `getenv osenv "" = ""` holds and
the chain resolves the key through the environment tier. -/
theorem claim_C1_find_precedence_chain_witness :
    getenv [("APP_LEVEL", "trace")] "" = ""
    ∧ (NewConfiguration.BindEnv ["app.level"]).1.Find [("APP_LEVEL", "trace")]
        "app.level" = Value.vstr "trace" := by
  refine ⟨rfl, ?_⟩
  have h := claim_C1_find_precedence_chain
    (NewConfiguration.BindEnv ["app.level"]).1 [("APP_LEVEL", "trace")]
    "app.level" rfl
  rw [h.1]
  rfl

/-- C6: `SetDefault` writes into the attribute store exactly when `IsSet`
(via the full chain resolution) is false, so it is blocked by any
already-present flag, environment, file or earlier-default value; and an
earlier `SetDefault` of a (non-null) value blocks a later `SetDefault` of
the same key. -/
theorem claim_C6_setdefault_blocked_by_isset (m : ConfigManager)
    (osenv : List (String × String)) (k : String) (v w : Value) :
    (m.IsSet osenv k = true → m.SetDefault osenv k v = m)
    ∧ (m.IsSet osenv k = false →
        (m.SetDefault osenv k v).attributes = m.attributes.Set k v
        ∧ (m.SetDefault osenv k v).pflags = m.pflags
        ∧ (m.SetDefault osenv k v).env = m.env)
    ∧ (v ≠ Value.vnull →
        (m.SetDefault osenv k v).SetDefault osenv k w
          = m.SetDefault osenv k v) := by
  refine ⟨?_, ?_, ?_⟩
  · intro h
    simp [ConfigManager.SetDefault, h]
  · intro h
    refine ⟨?_, ?_, ?_⟩ <;> simp [ConfigManager.SetDefault, h]
  · intro hv
    by_cases hIs : m.IsSet osenv k
    · simp [ConfigManager.SetDefault, hIs]
    · have hfalse : m.IsSet osenv k = false := by simpa using hIs
      have hfind : m.Find osenv k = Value.vnull := by
        by_contra hne
        exact hIs ((isSet_iff_find_ne m osenv k).2 hne)
      obtain ⟨hp, he⟩ := find_vnull_tiers m osenv k hfind
      have hm' : m.SetDefault osenv k v
          = { m with attributes := m.attributes.Set k v } := by
        simp [ConfigManager.SetDefault, hfalse]
      rw [hm']
      have hget : ({ m with attributes := m.attributes.Set k v }
          : ConfigManager).attributes.Get k = (v, true) :=
        configSource_set_get m.attributes k k v hv rfl
      have hfind' : ({ m with attributes := m.attributes.Set k v }
          : ConfigManager).Find osenv k = v := by
        unfold ConfigManager.Find
        simp [hp, he, hget]
      have hIs' : ({ m with attributes := m.attributes.Set k v }
          : ConfigManager).IsSet osenv k = true :=
        (isSet_iff_find_ne _ osenv k).2 (by rw [hfind']; exact hv)
      simp [ConfigManager.SetDefault, hIs']

/-- Witness for C6 at concrete inputs: a fresh resolver has `"age"` unset,
the first default writes it, and a second default of the same key is
blocked. -/
theorem claim_C6_setdefault_blocked_by_isset_witness :
    NewConfiguration.IsSet [] "age" = false
    ∧ (Value.vint 45 ≠ Value.vnull)
    ∧ (NewConfiguration.SetDefault [] "age" (Value.vint 45)).attributes
        = NewConfiguration.attributes.Set "age" (Value.vint 45)
    ∧ (NewConfiguration.SetDefault [] "age" (Value.vint 45)).SetDefault []
        "age" (Value.vint 99)
        = NewConfiguration.SetDefault [] "age" (Value.vint 45) := by
  refine ⟨rfl, by simp, ?_, ?_⟩
  · exact ((claim_C6_setdefault_blocked_by_isset NewConfiguration [] "age"
      (Value.vint 45) (Value.vint 99)).2.1 rfl).1
  · exact (claim_C6_setdefault_blocked_by_isset NewConfiguration [] "age"
      (Value.vint 45) (Value.vint 99)).2.2 (by simp)

/-- C10: when the flag and environment tiers miss a key and the attribute
tier resolves it to a stored null, the public interface treats the key as
absent — `Get` returns nil and `IsSet` is false, exactly as for a missing
key — and a subsequent `SetDefault` therefore goes through: afterwards
`Get` returns the new (non-null) default. -/
theorem claim_C10_null_indistinguishable_from_missing (m : ConfigManager)
    (osenv : List (String × String)) (k : String) (v : Value)
    (hflag : (m.pflags.Get k).2 = false)
    (henv : (m.env.Get osenv k).2 = false)
    (hattr : (m.attributes.Get k).1 = Value.vnull) :
    m.Get osenv k = Value.vnull
    ∧ m.IsSet osenv k = false
    ∧ (v ≠ Value.vnull → (m.SetDefault osenv k v).Get osenv k = v) := by
  have hfind : m.Find osenv k = Value.vnull := by
    unfold ConfigManager.Find
    rcases h2 : (m.attributes.Get k).2 <;> simp [hflag, henv, h2, hattr]
  have hget : m.Get osenv k = Value.vnull := by
    rw [get_eq_find, hfind]
  have hisset : m.IsSet osenv k = false := by
    unfold ConfigManager.IsSet
    rw [hget]
  refine ⟨hget, hisset, ?_⟩
  intro hv
  have hm' : m.SetDefault osenv k v
      = { m with attributes := m.attributes.Set k v } := by
    simp [ConfigManager.SetDefault, hisset]
  rw [hm', get_eq_find]
  have hget' : ({ m with attributes := m.attributes.Set k v }
      : ConfigManager).attributes.Get k = (v, true) :=
    configSource_set_get m.attributes k k v hv rfl
  unfold ConfigManager.Find
  simp [hflag, henv, hget']

/-- The concrete resolver state of the C10 witness: the tree
`{server: {workers: null}}` loaded into a fresh resolver. -/
def nullWorkersManager : ConfigManager :=
  { NewConfiguration with
    attributes :=
      NewConfigSource.FromStringMap
        [("server", Value.vmap [("workers", Value.vnull)])] }

/-- Witness for C10 at a concrete state: the hypotheses hold for
`nullWorkersManager` and the ensuing `SetDefault` of `"3"` becomes visible
through `Get`. -/
theorem claim_C10_null_indistinguishable_from_missing_witness :
    (nullWorkersManager.pflags.Get "server.workers").2 = false
    ∧ (nullWorkersManager.env.Get [] "server.workers").2 = false
    ∧ (nullWorkersManager.attributes.Get "server.workers").1 = Value.vnull
    ∧ nullWorkersManager.Get [] "server.workers" = Value.vnull
    ∧ (nullWorkersManager.SetDefault [] "server.workers" (Value.vstr "3")).Get
        [] "server.workers" = Value.vstr "3" := by
  refine ⟨rfl, rfl, rfl, ?_, ?_⟩
  · exact (claim_C10_null_indistinguishable_from_missing nullWorkersManager []
      "server.workers" (Value.vstr "3") (by rfl) (by rfl) (by rfl)).1
  · exact (claim_C10_null_indistinguishable_from_missing nullWorkersManager []
      "server.workers" (Value.vstr "3") (by rfl) (by rfl) (by rfl)).2.2
      (by simp)

theorem mergeValueAt_base_nonmap (bv ov : Value)
    (hb : ∀ bm, bv ≠ Value.vmap bm) : mergeValueAt (some bv) ov = ov := by
  cases bv with
  | vmap bm => exact absurd rfl (hb bm)
  | vnull => cases ov <;> rfl
  | vbool b => cases ov <;> rfl
  | vint n => cases ov <;> rfl
  | vfloat q => cases ov <;> rfl
  | vstr s => cases ov <;> rfl
  | vtime t => cases ov <;> rfl
  | vseq xs => cases ov <;> rfl
  | vstrseq xs => cases ov <;> rfl

theorem mergeValueAt_overlay_nonmap (bv : Option Value) (ov : Value)
    (ho : ∀ om, ov ≠ Value.vmap om) : mergeValueAt bv ov = ov := by
  cases ov with
  | vmap om => exact absurd rfl (ho om)
  | vnull => rcases bv with _ | v <;> [rfl; (cases v <;> rfl)]
  | vbool b => rcases bv with _ | v <;> [rfl; (cases v <;> rfl)]
  | vint n => rcases bv with _ | v <;> [rfl; (cases v <;> rfl)]
  | vfloat q => rcases bv with _ | v <;> [rfl; (cases v <;> rfl)]
  | vstr s => rcases bv with _ | v <;> [rfl; (cases v <;> rfl)]
  | vtime t => rcases bv with _ | v <;> [rfl; (cases v <;> rfl)]
  | vseq xs => rcases bv with _ | v <;> [rfl; (cases v <;> rfl)]
  | vstrseq xs => rcases bv with _ | v <;> [rfl; (cases v <;> rfl)]

/-- C7: the deep merge preserves unchanged every key present only in the
base; for a key present in the overlay the merged value is `mergeValueAt`
of the two sides — the overlay value replaces the base value whenever the
key is absent in the base or either side is not a nested map (in
particular an overlay list clobbers a base list), and two nested maps
merge recursively. -/
theorem claim_C7_deep_merge_semantics (b d : EntryList)
    (hnd : (d.map Prod.fst).Nodup) (k : String) :
    (mapLookup d k = none →
      mapLookup (mergeMap b d) k = mapLookup b k)
    ∧ (∀ ov, mapLookup d k = some ov →
        mapLookup (mergeMap b d) k = some (mergeValueAt (mapLookup b k) ov))
    ∧ (mapLookup b k = none → ∀ ov, mapLookup d k = some ov →
        mapLookup (mergeMap b d) k = some ov)
    ∧ (∀ bv ov, mapLookup b k = some bv → mapLookup d k = some ov →
        (∀ bm, bv ≠ Value.vmap bm) →
        mapLookup (mergeMap b d) k = some ov)
    ∧ (∀ bv ov, mapLookup b k = some bv → mapLookup d k = some ov →
        (∀ om, ov ≠ Value.vmap om) →
        mapLookup (mergeMap b d) k = some ov)
    ∧ (∀ xs ys, mapLookup b k = some (Value.vseq xs) →
        mapLookup d k = some (Value.vseq ys) →
        mapLookup (mergeMap b d) k = some (Value.vseq ys))
    ∧ (∀ bm om, mapLookup b k = some (Value.vmap bm) →
        mapLookup d k = some (Value.vmap om) →
        mapLookup (mergeMap b d) k = some (Value.vmap (mergeMap bm om))) := by
  have hchar := mapLookup_mergeMap d hnd b k
  refine ⟨?_, ?_, ?_, ?_, ?_, ?_, ?_⟩
  · intro h
    rw [hchar, h]
  · intro ov h
    rw [hchar, h]
  · intro hb ov h
    rw [hchar, h, hb]
    show some (mergeValueAt none ov) = some ov
    rw [mergeValueAt_none]
  · intro bv ov hb h hnm
    rw [hchar, h, hb]
    show some (mergeValueAt (some bv) ov) = some ov
    rw [mergeValueAt_base_nonmap bv ov hnm]
  · intro bv ov hb h hnm
    rw [hchar, h, hb]
    show some (mergeValueAt (some bv) ov) = some ov
    rw [mergeValueAt_overlay_nonmap (some bv) ov hnm]
  · intro xs ys hb h
    rw [hchar, h, hb]
    rfl
  · intro bm om hb h
    rw [hchar, h, hb]
    rfl

/-- Witness for C7 at the spec's own example
`Merge({a:{x:1,y:2}}, {a:{y:3,z:4}})`: the overlay's key list is
duplicate-free and the nested maps merge recursively, giving
`{a:{x:1,y:3,z:4}}`. -/
theorem claim_C7_deep_merge_semantics_witness :
    (([("a", Value.vmap [("y", Value.vint 3), ("z", Value.vint 4)])]
        : EntryList).map Prod.fst).Nodup
    ∧ mapLookup
        (mergeMap [("a", Value.vmap [("x", Value.vint 1), ("y", Value.vint 2)])]
          [("a", Value.vmap [("y", Value.vint 3), ("z", Value.vint 4)])]) "a"
      = some (Value.vmap
          (mergeMap [("x", Value.vint 1), ("y", Value.vint 2)]
            [("y", Value.vint 3), ("z", Value.vint 4)])) := by
  refine ⟨by simp, ?_⟩
  exact (claim_C7_deep_merge_semantics
    [("a", Value.vmap [("x", Value.vint 1), ("y", Value.vint 2)])]
    [("a", Value.vmap [("y", Value.vint 3), ("z", Value.vint 4)])]
    (by simp) "a").2.2.2.2.2.2 _ _ rfl rfl

theorem wfE_toStringMap (v : Value) (h : wfV v = true) :
    wfE (toStringMap v) = true := by
  cases v <;> simp_all [toStringMap, wfV, wfE]

/-- C8: two successive `MergeAttributes` calls with the same decoded
document leave exactly the tree of a single call (for genuine Go maps,
i.e. recursively duplicate-free trees on both sides). -/
theorem claim_C8_merge_attributes_idempotent (m : ConfigManager) (doc : Value)
    (hb : wfE m.attributes.data = true) (hd : wfV doc = true) :
    ((m.MergeAttributes doc).MergeAttributes doc).attributes.data
      = (m.MergeAttributes doc).attributes.data := by
  unfold ConfigManager.MergeAttributes ConfigSource.FromStringMap
    ConfigSource.UpdateIndices ConfigSource.ToStringMap
  exact mergeMap_twice (toStringMap doc) (wfE_toStringMap doc hd)
    m.attributes.data hb

/-- Witness for C8 at concrete inputs: merging the overlay document
`{a:{y:3}, b:true}` twice onto a fresh resolver holding `{a:{x:1}}` leaves
the once-merged tree. -/
theorem claim_C8_merge_attributes_idempotent_witness :
    wfE ({ NewConfiguration with
        attributes :=
          NewConfigSource.FromStringMap [("a", Value.vmap [("x", Value.vint 1)])]
      } : ConfigManager).attributes.data = true
    ∧ wfV (Value.vmap [("a", Value.vmap [("y", Value.vint 3)]),
        ("b", Value.vbool true)]) = true
    ∧ ((({ NewConfiguration with
        attributes :=
          NewConfigSource.FromStringMap [("a", Value.vmap [("x", Value.vint 1)])]
      } : ConfigManager).MergeAttributes
        (Value.vmap [("a", Value.vmap [("y", Value.vint 3)]),
          ("b", Value.vbool true)])).MergeAttributes
        (Value.vmap [("a", Value.vmap [("y", Value.vint 3)]),
          ("b", Value.vbool true)])).attributes.data
      = ((({ NewConfiguration with
        attributes :=
          NewConfigSource.FromStringMap [("a", Value.vmap [("x", Value.vint 1)])]
      } : ConfigManager).MergeAttributes
        (Value.vmap [("a", Value.vmap [("y", Value.vint 3)]),
          ("b", Value.vbool true)])).attributes.data) := by
  refine ⟨rfl, rfl, ?_⟩
  exact claim_C8_merge_attributes_idempotent _ _ rfl rfl

/-! ## Index monotonicity (for the amended C3 and C4) -/

theorem mapInsert_isSome_mono {α : Type} (m : List (String × α))
    (k : String) (v : α) (q : String) (h : (mapLookup m q).isSome) :
    (mapLookup (mapInsert m k v) q).isSome := by
  by_cases hq : q = k
  · subst hq
    rw [mapLookup_insert_self]
    rfl
  · rw [mapLookup_insert_other m k q v hq]
    exact h

/-- `updateIndex` (and its child walk) never removes index entries. -/
theorem updateIndex_isSome_mono_aux :
    ∀ (n : Nat),
    (∀ (v : Value), sizeOf v ≤ n →
      ∀ (idx : List (String × String)) (key q : String),
        (mapLookup idx q).isSome →
        (mapLookup (updateIndex idx key v) q).isSome)
    ∧ (∀ (m : EntryList), sizeOf m ≤ n →
      ∀ (idx : List (String × String)) (key q : String),
        (mapLookup idx q).isSome →
        (mapLookup (updateIndexChildren idx key m) q).isSome) := by
  intro n
  induction n with
  | zero =>
    constructor
    · intro v hv
      exfalso
      cases v <;> simp at hv
    · intro m hm
      exfalso
      cases m <;> simp at hm
  | succ n ihn =>
    obtain ⟨ihv, ihm⟩ := ihn
    constructor
    · intro v hv idx key q h
      cases v with
      | vnull => simpa [updateIndex] using h
      | vmap m =>
        have hm : sizeOf m ≤ n := by
          simp only [Value.vmap.sizeOf_spec] at hv
          omega
        rw [show updateIndex idx key (Value.vmap m)
              = updateIndexChildren (mapInsert idx (strLower key) key) key m by
            simp [updateIndex]]
        exact ihm m hm _ key q (mapInsert_isSome_mono idx (strLower key) key q h)
      | vbool b =>
        simpa [updateIndex] using mapInsert_isSome_mono idx (strLower key) key q h
      | vint nn =>
        simpa [updateIndex] using mapInsert_isSome_mono idx (strLower key) key q h
      | vfloat qq =>
        simpa [updateIndex] using mapInsert_isSome_mono idx (strLower key) key q h
      | vstr s =>
        simpa [updateIndex] using mapInsert_isSome_mono idx (strLower key) key q h
      | vtime t =>
        simpa [updateIndex] using mapInsert_isSome_mono idx (strLower key) key q h
      | vseq xs =>
        simpa [updateIndex] using mapInsert_isSome_mono idx (strLower key) key q h
      | vstrseq xs =>
        simpa [updateIndex] using mapInsert_isSome_mono idx (strLower key) key q h
    · intro m hm idx key q h
      cases m with
      | nil => simpa [updateIndexChildren] using h
      | cons p rest =>
        obtain ⟨ck, val⟩ := p
        have hrest : sizeOf rest ≤ n := by
          simp only [List.cons.sizeOf_spec] at hm
          omega
        have hval : sizeOf val ≤ n := by
          simp only [List.cons.sizeOf_spec, Prod.mk.sizeOf_spec] at hm
          omega
        rw [show updateIndexChildren idx key ((ck, val) :: rest)
              = updateIndexChildren
                  (updateIndex idx
                    (if key.length > 0 then key ++ "." ++ ck else key) val)
                  key rest by
            simp [updateIndexChildren]]
        exact ihm rest hrest _ key q (ihv val hval idx _ q h)

/-- The `UpdateIndices` fold never removes index entries. -/
theorem updateIndicesFold_isSome_mono (t : EntryList)
    (idx : List (String × String)) (q : String)
    (h : (mapLookup idx q).isSome) :
    (mapLookup (updateIndicesFold idx t) q).isSome := by
  induction t generalizing idx with
  | nil => simpa [updateIndicesFold] using h
  | cons p rest ih =>
    obtain ⟨k, v⟩ := p
    rw [show updateIndicesFold idx ((k, v) :: rest)
          = updateIndicesFold (updateIndex idx k v) rest by
        simp [updateIndicesFold]]
    exact ih _ ((updateIndex_isSome_mono_aux (sizeOf v)).1 v le_rfl idx k q h)

/-- C4 (amended): `FromStringMap` replaces the entire owned tree and
re-walks every top-level entry of the new tree, extending the index in
place without clearing it first — so every pre-existing index entry
persists, including entries for paths unreachable in the new tree. -/
theorem claim_C4_from_string_map_extends_index (s : ConfigSource)
    (t : EntryList) :
    (s.FromStringMap t).data = t
    ∧ (s.FromStringMap t).index = updateIndicesFold s.index t
    ∧ (∀ q, (mapLookup s.index q).isSome →
        (mapLookup (s.FromStringMap t).index q).isSome) := by
  refine ⟨rfl, rfl, ?_⟩
  intro q h
  exact updateIndicesFold_isSome_mono t s.index q h

/-- Witness for C4 (amended) at concrete inputs: the entry for the old
path `"a"` persists through a wholesale replacement by `{b: 2}`. -/
theorem claim_C4_from_string_map_extends_index_witness :
    (mapLookup (NewConfigSource.FromStringMap [("a", Value.vint 1)]).index
        "a").isSome
    ∧ (mapLookup ((NewConfigSource.FromStringMap
        [("a", Value.vint 1)]).FromStringMap [("b", Value.vint 2)]).index
        "a").isSome := by
  refine ⟨rfl, ?_⟩
  exact (claim_C4_from_string_map_extends_index
    (NewConfigSource.FromStringMap [("a", Value.vint 1)])
    [("b", Value.vint 2)]).2.2 "a" rfl

/-! ## Reachable paths of a tree (for the amended C3)

`treePaths pre t` enumerates every dot-joined path of the tree `t` under
the path `pre` together with the value sitting there — leaf paths and
intermediate-map paths alike (`pre = ""` for the top level, where the path
is the key itself). -/

mutual

/-- All `(path, value)` pairs of a tree under the given parent path. -/
def treePaths (pre : String) : EntryList → List (String × Value)
  | [] => []
  | (k, v) :: rest =>
    let p := if pre.length > 0 then pre ++ "." ++ k else k
    (p, v) :: (valuePaths p v ++ treePaths pre rest)

/-- The strict descendants of a value sitting at path `p`: the paths of
its entries when it is a nested map, nothing otherwise. -/
def valuePaths (p : String) : Value → List (String × Value)
  | Value.vmap m => treePaths p m
  | _ => []

end

mutual

/-- Every key of the tree (at every level) is non-empty. -/
def neKeysE : EntryList → Bool
  | [] => true
  | (k, v) :: rest => decide (k.length > 0) && neKeysV v && neKeysE rest

/-- Key non-emptiness inside a value. -/
def neKeysV : Value → Bool
  | Value.vmap m => neKeysE m
  | _ => true

end

theorem mapInsert_keys_nodup {α : Type} (m : List (String × α))
    (k : String) (v : α) (h : (m.map Prod.fst).Nodup) :
    ((mapInsert m k v).map Prod.fst).Nodup := by
  rw [mapInsert_keys]
  by_cases hmem : k ∈ m.map Prod.fst
  · simpa [hmem] using h
  · simp only [hmem, if_false]
    rw [List.nodup_append]
    exact ⟨h, List.nodup_singleton k, by simpa using hmem⟩

/-- `updateIndex` (and its child walk) preserves uniqueness of the index's
keys. -/
theorem updateIndex_keys_nodup_aux :
    ∀ (n : Nat),
    (∀ (v : Value), sizeOf v ≤ n →
      ∀ (idx : List (String × String)) (key : String),
        (idx.map Prod.fst).Nodup →
        ((updateIndex idx key v).map Prod.fst).Nodup)
    ∧ (∀ (m : EntryList), sizeOf m ≤ n →
      ∀ (idx : List (String × String)) (key : String),
        (idx.map Prod.fst).Nodup →
        ((updateIndexChildren idx key m).map Prod.fst).Nodup) := by
  intro n
  induction n with
  | zero =>
    constructor
    · intro v hv
      exfalso
      cases v <;> simp at hv
    · intro m hm
      exfalso
      cases m <;> simp at hm
  | succ n ihn =>
    obtain ⟨ihv, ihm⟩ := ihn
    constructor
    · intro v hv idx key h
      cases v with
      | vnull => simpa [updateIndex] using h
      | vmap m =>
        have hm : sizeOf m ≤ n := by
          simp only [Value.vmap.sizeOf_spec] at hv
          omega
        rw [show updateIndex idx key (Value.vmap m)
              = updateIndexChildren (mapInsert idx (strLower key) key) key m by
            simp [updateIndex]]
        exact ihm m hm _ key (mapInsert_keys_nodup idx (strLower key) key h)
      | vbool b =>
        simpa [updateIndex] using mapInsert_keys_nodup idx (strLower key) key h
      | vint nn =>
        simpa [updateIndex] using mapInsert_keys_nodup idx (strLower key) key h
      | vfloat qq =>
        simpa [updateIndex] using mapInsert_keys_nodup idx (strLower key) key h
      | vstr s =>
        simpa [updateIndex] using mapInsert_keys_nodup idx (strLower key) key h
      | vtime t =>
        simpa [updateIndex] using mapInsert_keys_nodup idx (strLower key) key h
      | vseq xs =>
        simpa [updateIndex] using mapInsert_keys_nodup idx (strLower key) key h
      | vstrseq xs =>
        simpa [updateIndex] using mapInsert_keys_nodup idx (strLower key) key h
    · intro m hm idx key h
      cases m with
      | nil => simpa [updateIndexChildren] using h
      | cons p rest =>
        obtain ⟨ck, val⟩ := p
        have hrest : sizeOf rest ≤ n := by
          simp only [List.cons.sizeOf_spec] at hm
          omega
        have hval : sizeOf val ≤ n := by
          simp only [List.cons.sizeOf_spec, Prod.mk.sizeOf_spec] at hm
          omega
        rw [show updateIndexChildren idx key ((ck, val) :: rest)
              = updateIndexChildren
                  (updateIndex idx
                    (if key.length > 0 then key ++ "." ++ ck else key) val)
                  key rest by
            simp [updateIndexChildren]]
        exact ihm rest hrest _ key (ihv val hval idx _ h)

/-- The `UpdateIndices` fold preserves uniqueness of the index's keys. -/
theorem updateIndicesFold_keys_nodup (t : EntryList)
    (idx : List (String × String)) (h : (idx.map Prod.fst).Nodup) :
    ((updateIndicesFold idx t).map Prod.fst).Nodup := by
  induction t generalizing idx with
  | nil => simpa [updateIndicesFold] using h
  | cons p rest ih =>
    obtain ⟨k, v⟩ := p
    rw [show updateIndicesFold idx ((k, v) :: rest)
          = updateIndicesFold (updateIndex idx k v) rest by
        simp [updateIndicesFold]]
    exact ih _ ((updateIndex_keys_nodup_aux (sizeOf v)).1 v le_rfl idx k h)

/-- Coverage: after `updateIndex` on a non-empty key, every path of the
updated value (the key itself and, for maps, all dot-joined descendants)
whose value is non-null has an index entry under its lowercased form. -/
theorem updateIndex_covers_aux :
    ∀ (n : Nat),
    (∀ (v : Value), sizeOf v ≤ n →
      ∀ (idx : List (String × String)) (key : String), 0 < key.length →
        neKeysV v = true →
        ∀ (p : String) (w : Value),
          ((p, w) = (key, v) ∨ (p, w) ∈ valuePaths key v) → w ≠ Value.vnull →
          (mapLookup (updateIndex idx key v) (strLower p)).isSome)
    ∧ (∀ (m : EntryList), sizeOf m ≤ n →
      ∀ (idx : List (String × String)) (key : String), 0 < key.length →
        neKeysE m = true →
        ∀ (p : String) (w : Value),
          (p, w) ∈ treePaths key m → w ≠ Value.vnull →
          (mapLookup (updateIndexChildren idx key m) (strLower p)).isSome) := by
  intro n
  induction n with
  | zero =>
    constructor
    · intro v hv
      exfalso
      cases v <;> simp at hv
    · intro m hm
      exfalso
      cases m <;> simp at hm
  | succ n ihn =>
    obtain ⟨ihv, ihm⟩ := ihn
    constructor
    · intro v hv idx key hkey hne p w hmem hw
      cases v with
      | vnull =>
        rcases hmem with heq | hmem
        · exact absurd (congrArg Prod.snd heq) (by simpa using hw)
        · simp [valuePaths] at hmem
      | vmap mm =>
        have hmm : sizeOf mm ≤ n := by
          simp only [Value.vmap.sizeOf_spec] at hv
          omega
        rw [show updateIndex idx key (Value.vmap mm)
              = updateIndexChildren (mapInsert idx (strLower key) key) key mm by
            simp [updateIndex]]
        rcases hmem with heq | hmem
        · injection heq with hp hw2
          rw [hp]
          exact (updateIndex_isSome_mono_aux (sizeOf mm)).2 mm le_rfl _ key
            (strLower key) (by rw [mapLookup_insert_self]; rfl)
        · simp only [valuePaths] at hmem
          exact ihm mm hmm _ key hkey (by simpa [neKeysV] using hne) p w hmem hw
      | vbool b =>
        rcases hmem with heq | hmem
        · injection heq with hp hw2
          rw [hp]
          simp [updateIndex, mapLookup_insert_self]
        · simp [valuePaths] at hmem
      | vint nn =>
        rcases hmem with heq | hmem
        · injection heq with hp hw2
          rw [hp]
          simp [updateIndex, mapLookup_insert_self]
        · simp [valuePaths] at hmem
      | vfloat qq =>
        rcases hmem with heq | hmem
        · injection heq with hp hw2
          rw [hp]
          simp [updateIndex, mapLookup_insert_self]
        · simp [valuePaths] at hmem
      | vstr s =>
        rcases hmem with heq | hmem
        · injection heq with hp hw2
          rw [hp]
          simp [updateIndex, mapLookup_insert_self]
        · simp [valuePaths] at hmem
      | vtime t =>
        rcases hmem with heq | hmem
        · injection heq with hp hw2
          rw [hp]
          simp [updateIndex, mapLookup_insert_self]
        · simp [valuePaths] at hmem
      | vseq xs =>
        rcases hmem with heq | hmem
        · injection heq with hp hw2
          rw [hp]
          simp [updateIndex, mapLookup_insert_self]
        · simp [valuePaths] at hmem
      | vstrseq xs =>
        rcases hmem with heq | hmem
        · injection heq with hp hw2
          rw [hp]
          simp [updateIndex, mapLookup_insert_self]
        · simp [valuePaths] at hmem
    · intro m hm idx key hkey hne p w hmem hw
      cases m with
      | nil => simp [treePaths] at hmem
      | cons pr rest =>
        obtain ⟨ck, val⟩ := pr
        have hrest : sizeOf rest ≤ n := by
          simp only [List.cons.sizeOf_spec] at hm
          omega
        have hval : sizeOf val ≤ n := by
          simp only [List.cons.sizeOf_spec, Prod.mk.sizeOf_spec] at hm
          omega
        simp only [neKeysE, Bool.and_eq_true, decide_eq_true_eq] at hne
        have hjoin : 0 < (key ++ "." ++ ck).length := by
          rw [joined_length]
          omega
        rw [show updateIndexChildren idx key ((ck, val) :: rest)
              = updateIndexChildren
                  (updateIndex idx (key ++ "." ++ ck) val) key rest by
            simp [updateIndexChildren, hkey]]
        simp only [treePaths, if_pos hkey, List.mem_cons, List.mem_append]
          at hmem
        rcases hmem with heq | hmem | hmem
        · exact (updateIndex_isSome_mono_aux (sizeOf rest)).2 rest le_rfl _ key
            (strLower p)
            (ihv val hval idx (key ++ "." ++ ck) hjoin hne.1.2 p w
              (Or.inl heq) hw)
        · exact (updateIndex_isSome_mono_aux (sizeOf rest)).2 rest le_rfl _ key
            (strLower p)
            (ihv val hval idx (key ++ "." ++ ck) hjoin hne.1.2 p w
              (Or.inr hmem) hw)
        · exact ihm rest hrest _ key hkey hne.2 p w hmem hw

theorem mapInsert_isSome_inv {α : Type} (m : List (String × α))
    (k : String) (v : α) (q : String)
    (h : (mapLookup (mapInsert m k v) q).isSome) :
    q = k ∨ (mapLookup m q).isSome := by
  by_cases hq : q = k
  · exact Or.inl hq
  · rw [mapLookup_insert_other m k q v hq] at h
    exact Or.inr h

/-- Justification: every index entry produced by `updateIndex` on a
non-empty key either pre-existed or is the lowercase of a path of the
updated value whose value is non-null. -/
theorem updateIndex_justified_aux :
    ∀ (n : Nat),
    (∀ (v : Value), sizeOf v ≤ n →
      ∀ (idx : List (String × String)) (key q : String), 0 < key.length →
        (mapLookup (updateIndex idx key v) q).isSome →
        (mapLookup idx q).isSome
        ∨ ∃ (p : String) (w : Value),
            ((p, w) = (key, v) ∨ (p, w) ∈ valuePaths key v)
            ∧ strLower p = q ∧ w ≠ Value.vnull)
    ∧ (∀ (m : EntryList), sizeOf m ≤ n →
      ∀ (idx : List (String × String)) (key q : String), 0 < key.length →
        (mapLookup (updateIndexChildren idx key m) q).isSome →
        (mapLookup idx q).isSome
        ∨ ∃ (p : String) (w : Value),
            (p, w) ∈ treePaths key m ∧ strLower p = q ∧ w ≠ Value.vnull) := by
  intro n
  induction n with
  | zero =>
    constructor
    · intro v hv
      exfalso
      cases v <;> simp at hv
    · intro m hm
      exfalso
      cases m <;> simp at hm
  | succ n ihn =>
    obtain ⟨ihv, ihm⟩ := ihn
    constructor
    · intro v hv idx key q hkey h
      cases v with
      | vnull => exact Or.inl (by simpa [updateIndex] using h)
      | vmap mm =>
        have hmm : sizeOf mm ≤ n := by
          simp only [Value.vmap.sizeOf_spec] at hv
          omega
        rw [show updateIndex idx key (Value.vmap mm)
              = updateIndexChildren (mapInsert idx (strLower key) key) key mm by
            simp [updateIndex]] at h
        rcases ihm mm hmm _ key q hkey h with hold | ⟨p, w, hmem, hlow, hw⟩
        · rcases mapInsert_isSome_inv idx (strLower key) key q hold with hq | hq
          · exact Or.inr ⟨key, Value.vmap mm, Or.inl rfl, hq.symm, by simp⟩
          · exact Or.inl hq
        · exact Or.inr ⟨p, w, Or.inr (by simpa [valuePaths] using hmem),
            hlow, hw⟩
      | vbool b =>
        rcases mapInsert_isSome_inv idx (strLower key) key q
            (by simpa [updateIndex] using h) with hq | hq
        · exact Or.inr ⟨key, Value.vbool b, Or.inl rfl, hq.symm, by simp⟩
        · exact Or.inl hq
      | vint nn =>
        rcases mapInsert_isSome_inv idx (strLower key) key q
            (by simpa [updateIndex] using h) with hq | hq
        · exact Or.inr ⟨key, Value.vint nn, Or.inl rfl, hq.symm, by simp⟩
        · exact Or.inl hq
      | vfloat qq =>
        rcases mapInsert_isSome_inv idx (strLower key) key q
            (by simpa [updateIndex] using h) with hq | hq
        · exact Or.inr ⟨key, Value.vfloat qq, Or.inl rfl, hq.symm, by simp⟩
        · exact Or.inl hq
      | vstr s =>
        rcases mapInsert_isSome_inv idx (strLower key) key q
            (by simpa [updateIndex] using h) with hq | hq
        · exact Or.inr ⟨key, Value.vstr s, Or.inl rfl, hq.symm, by simp⟩
        · exact Or.inl hq
      | vtime t =>
        rcases mapInsert_isSome_inv idx (strLower key) key q
            (by simpa [updateIndex] using h) with hq | hq
        · exact Or.inr ⟨key, Value.vtime t, Or.inl rfl, hq.symm, by simp⟩
        · exact Or.inl hq
      | vseq xs =>
        rcases mapInsert_isSome_inv idx (strLower key) key q
            (by simpa [updateIndex] using h) with hq | hq
        · exact Or.inr ⟨key, Value.vseq xs, Or.inl rfl, hq.symm, by simp⟩
        · exact Or.inl hq
      | vstrseq xs =>
        rcases mapInsert_isSome_inv idx (strLower key) key q
            (by simpa [updateIndex] using h) with hq | hq
        · exact Or.inr ⟨key, Value.vstrseq xs, Or.inl rfl, hq.symm, by simp⟩
        · exact Or.inl hq
    · intro m hm idx key q hkey h
      cases m with
      | nil => exact Or.inl (by simpa [updateIndexChildren] using h)
      | cons pr rest =>
        obtain ⟨ck, val⟩ := pr
        have hrest : sizeOf rest ≤ n := by
          simp only [List.cons.sizeOf_spec] at hm
          omega
        have hval : sizeOf val ≤ n := by
          simp only [List.cons.sizeOf_spec, Prod.mk.sizeOf_spec] at hm
          omega
        have hjoin : 0 < (key ++ "." ++ ck).length := by
          rw [joined_length]
          omega
        rw [show updateIndexChildren idx key ((ck, val) :: rest)
              = updateIndexChildren
                  (updateIndex idx (key ++ "." ++ ck) val) key rest by
            simp [updateIndexChildren, hkey]] at h
        rcases ihm rest hrest _ key q hkey h with hold | ⟨p, w, hmem, hlow, hw⟩
        · rcases ihv val hval idx (key ++ "." ++ ck) q hjoin hold with
            hidx | ⟨p, w, hmem, hlow, hw⟩
          · exact Or.inl hidx
          · refine Or.inr ⟨p, w, ?_, hlow, hw⟩
            simp only [treePaths, if_pos hkey, List.mem_cons, List.mem_append]
            rcases hmem with heq | hmem
            · exact Or.inl heq
            · exact Or.inr (Or.inl hmem)
        · refine Or.inr ⟨p, w, ?_, hlow, hw⟩
          simp only [treePaths, if_pos hkey, List.mem_cons, List.mem_append]
          exact Or.inr (Or.inr hmem)

/-- Coverage through the `UpdateIndices` fold from the top level. -/
theorem updateIndicesFold_covers (t : EntryList) (hne : neKeysE t = true)
    (idx : List (String × String)) (p : String) (w : Value)
    (hmem : (p, w) ∈ treePaths "" t) (hw : w ≠ Value.vnull) :
    (mapLookup (updateIndicesFold idx t) (strLower p)).isSome := by
  induction t generalizing idx with
  | nil => simp [treePaths] at hmem
  | cons pr rest ih =>
    obtain ⟨k, v⟩ := pr
    simp only [neKeysE, Bool.and_eq_true, decide_eq_true_eq] at hne
    rw [show updateIndicesFold idx ((k, v) :: rest)
          = updateIndicesFold (updateIndex idx k v) rest by
        simp [updateIndicesFold]]
    simp only [treePaths, List.mem_cons, List.mem_append] at hmem
    have hp0 : (if ("" : String).length > 0 then "" ++ "." ++ k else k) = k := by
      simp [String.length]
    rw [hp0] at hmem
    rcases hmem with heq | hmem | hmem
    · exact updateIndicesFold_isSome_mono rest _ (strLower p)
        ((updateIndex_covers_aux (sizeOf v)).1 v le_rfl idx k hne.1.1
          hne.1.2 p w (Or.inl heq) hw)
    · exact updateIndicesFold_isSome_mono rest _ (strLower p)
        ((updateIndex_covers_aux (sizeOf v)).1 v le_rfl idx k hne.1.1
          hne.1.2 p w (Or.inr hmem) hw)
    · exact ih hne.2 _ hmem

/-- Justification through the `UpdateIndices` fold from the top level. -/
theorem updateIndicesFold_justified (t : EntryList) (hne : neKeysE t = true)
    (idx : List (String × String)) (q : String)
    (h : (mapLookup (updateIndicesFold idx t) q).isSome) :
    (mapLookup idx q).isSome
    ∨ ∃ (p : String) (w : Value),
        (p, w) ∈ treePaths "" t ∧ strLower p = q ∧ w ≠ Value.vnull := by
  induction t generalizing idx with
  | nil => exact Or.inl (by simpa [updateIndicesFold] using h)
  | cons pr rest ih =>
    obtain ⟨k, v⟩ := pr
    simp only [neKeysE, Bool.and_eq_true, decide_eq_true_eq] at hne
    rw [show updateIndicesFold idx ((k, v) :: rest)
          = updateIndicesFold (updateIndex idx k v) rest by
        simp [updateIndicesFold]] at h
    have hp0 : (if ("" : String).length > 0 then "" ++ "." ++ k else k) = k := by
      simp [String.length]
    rcases ih hne.2 _ h with hold | ⟨p, w, hmem, hlow, hw⟩
    · rcases (updateIndex_justified_aux (sizeOf v)).1 v le_rfl idx k q
          hne.1.1 hold with hidx | ⟨p, w, hmem, hlow, hw⟩
      · exact Or.inl hidx
      · refine Or.inr ⟨p, w, ?_, hlow, hw⟩
        simp only [treePaths, List.mem_cons, List.mem_append, hp0]
        rcases hmem with heq | hmem
        · exact Or.inl heq
        · exact Or.inr (Or.inl hmem)
    · refine Or.inr ⟨p, w, ?_, hlow, hw⟩
      simp only [treePaths, List.mem_cons, List.mem_append, hp0]
      exact Or.inr (Or.inr hmem)

/-- C3 (amended): after a full-tree load into a fresh store (keys
non-empty, as in every decoded document), the materialized index covers
exactly the non-null reachable paths: every leaf- or intermediate-map
path with a non-null value has an entry under its lowercased form, every
entry arises from such a non-null path (so a null value terminates descent
and receives no entry of its own), and the index holds at most one entry
per lowercased path. -/
theorem claim_C3_index_covers_nonnull_paths (t : EntryList)
    (hne : neKeysE t = true) :
    (∀ (p : String) (w : Value), (p, w) ∈ treePaths "" t →
      w ≠ Value.vnull →
      (mapLookup (NewConfigSource.FromStringMap t).index (strLower p)).isSome)
    ∧ (∀ q, (mapLookup (NewConfigSource.FromStringMap t).index q).isSome →
      ∃ (p : String) (w : Value),
        (p, w) ∈ treePaths "" t ∧ strLower p = q ∧ w ≠ Value.vnull)
    ∧ ((NewConfigSource.FromStringMap t).index.map Prod.fst).Nodup := by
  refine ⟨?_, ?_, ?_⟩
  · intro p w hmem hw
    exact updateIndicesFold_covers t hne [] p w hmem hw
  · intro q h
    rcases updateIndicesFold_justified t hne [] q h with hold | hjust
    · simp [mapLookup] at hold
    · exact hjust
  · exact updateIndicesFold_keys_nodup t [] (by simp)

/-- Witness for C3 (amended) at a concrete tree
`{server: {workers: null}, logging: {level: info}}`: keys are non-empty,
the non-null path `logging.level` is covered, and the index resolves some
entry, justified by a non-null path. -/
theorem claim_C3_index_covers_nonnull_paths_witness :
    neKeysE [("server", Value.vmap [("workers", Value.vnull)]),
        ("logging", Value.vmap [("level", Value.vstr "info")])] = true
    ∧ ("logging.level", Value.vstr "info") ∈ treePaths ""
        [("server", Value.vmap [("workers", Value.vnull)]),
          ("logging", Value.vmap [("level", Value.vstr "info")])]
    ∧ (mapLookup (NewConfigSource.FromStringMap
        [("server", Value.vmap [("workers", Value.vnull)]),
          ("logging", Value.vmap [("level", Value.vstr "info")])]).index
        (strLower "logging.level")).isSome := by
  refine ⟨rfl, ?_, ?_⟩
  · simp [treePaths, valuePaths, String.length]
  · exact (claim_C3_index_covers_nonnull_paths
      [("server", Value.vmap [("workers", Value.vnull)]),
        ("logging", Value.vmap [("level", Value.vstr "info")])] rfl).1
      "logging.level" (Value.vstr "info")
      (by simp [treePaths, valuePaths, String.length]) (by simp)

end Confer
